import Mathlib

set_option maxRecDepth 8000

/-!
Verification development for the aho-corasick-async crate.

The embedding follows the Rust sources closely:
* `AcNode`, `addWord`, `buildRoot` mirror `AcAutomatonNode` and `add_word`
  (src/automaton.rs). Bytes are modelled as `Nat` (only equality on bytes is
  ever used by the code); `HashMap<u8, _>` becomes an association list;
  `Rc`/`Weak` back references cannot be represented in a purely functional
  tree, so every node is identified by its path from the root, and the
  write-once `suffix_link` / `output_link` fields become association lists
  from paths to paths (`links`, `outs` of `AcAutomaton`).
* `suffixWalk`, `levelEntries`, `levelOuts`, `levelStep`, `buildWalkAux`
  mirror `breadth_first_walk` and `calculate_children_links`: the
  breadth-first worklist of nodes becomes the list of paths of the current
  depth level, processed one level per step. The suffix-search loop, which
  in Rust terminates because suffix links strictly decrease the depth, is
  given the explicit bound `sl.length + 1` on its number of iterations
  (proved sufficient below).
* `findNextStateF`/`nextState` mirror `find_next_state`; the recursion along
  suffix links is bounded by `p.length + 1` for the same reason.
* `processByte` mirrors the identical per-byte replace loop bodies of
  `AhoCorasickAsyncReader::poll_read` (src/reader.rs) and
  `AhoCorasickAsyncWriter::poll_write` (src/writer.rs); the cursor
  (the `state` field of `AcAutomaton` in Rust) and the potential-match
  deque are carried in `EngState`.
* `pollRead`, `pollWrite`, `pollClose` model one poll of the adapters.
  The underlying source is a list of events (`SrcEv`); an exhausted event
  list means the source keeps reporting zero read bytes. The writer sink
  response is `SinkRes`; the writer internal `buffer` together with
  `write_idx` is represented by the list of bytes emitted this call, and
  `PendingState \x7b bytes_to_write, bytes_read \x7d` by the pair of that
  list and the consumed input length.
-/

/-- Trie node, after `AcAutomatonNode`: depth, children map (association
list from byte to child), word flag and optional replacement payload.
The suffix and output links live in the path-indexed maps of `AcAutomaton`. -/
inductive AcNode : Type where
  | mk : Nat → List (Nat × AcNode) → Bool → Option (List Nat) → AcNode

def AcNode.depth : AcNode → Nat
  | .mk d _ _ _ => d

def AcNode.children : AcNode → List (Nat × AcNode)
  | .mk _ c _ _ => c

def AcNode.isWord : AcNode → Bool
  | .mk _ _ w _ => w

def AcNode.replacement : AcNode → Option (List Nat)
  | .mk _ _ _ r => r

/-- First-match lookup in a children association list (`children.get`). -/
def lookupChild : List (Nat × AcNode) → Nat → Option AcNode
  | [], _ => none
  | (k, n) :: rest, v => if k = v then some n else lookupChild rest v

/-- Replace the binding of a key, or append it (`children.entry(..)` update). -/
def setChild : List (Nat × AcNode) → Nat → AcNode → List (Nat × AcNode)
  | [], v, n => [(v, n)]
  | (k, m) :: rest, v, n => if k = v then (v, n) :: rest else (k, m) :: setChild rest v n

/-- `AcAutomatonNode::add_word`: walking or creating child nodes byte by
byte; the terminal node gets the word flag and the replacement payload. -/
def addWord : List Nat → AcNode → Option (List Nat) → AcNode
  | [], n, repl => .mk n.depth n.children true repl
  | v :: rest, n, repl =>
      let child := match lookupChild n.children v with
        | some c => c
        | none => .mk (n.depth + 1) [] false none
      .mk n.depth (setChild n.children v (addWord rest child repl)) n.isWord n.replacement

/-- The fresh root node built in `AcAutomaton::new`. -/
def rootNode : AcNode := .mk 0 [] false none

/-- The trie after all pattern insertions of `AcAutomaton::new`. -/
def buildRoot (ws : List (List Nat × Option (List Nat))) : AcNode :=
  ws.foldl (fun n w => addWord w.1 n w.2) rootNode

/-- The node reached from `t` along a path of bytes, if any. -/
def nodeAt : AcNode → List Nat → Option AcNode
  | n, [] => some n
  | n, v :: rest =>
      match lookupChild n.children v with
      | some c => nodeAt c rest
      | none => none

/-- A path is valid when a node of the trie sits at its end. -/
def validPath (t : AcNode) (p : List Nat) : Bool :=
  (nodeAt t p).isSome

/-- The child byte labels of the node at a path. -/
def childKeys (t : AcNode) (p : List Nat) : List Nat :=
  match nodeAt t p with
  | some n => n.children.map Prod.fst
  | none => []

/-- Whether the node at path `a` has a child labelled `v`. -/
def hasChild (t : AcNode) (a : List Nat) (v : Nat) : Bool :=
  match nodeAt t a with
  | some n => (lookupChild n.children v).isSome
  | none => false

/-- Whether the node at a path carries the word flag. -/
def isWordAt (t : AcNode) (p : List Nat) : Bool :=
  match nodeAt t p with
  | some n => n.isWord
  | none => false

abbrev LinkMap := List (List Nat × List Nat)

abbrev OutMap := List (List Nat × Option (List Nat))

/-- First-match lookup in a path-indexed association list (models reading a
write-once `Weak` back reference of the node at the key path). -/
def lookupA {α : Type} : List (List Nat × α) → List Nat → Option α
  | [], _ => none
  | (k, x) :: rest, p => if k = p then some x else lookupA rest p

/-- The suffix-search loop of `calculate_children_links`: starting from an
ancestor path, look for a child labelled `v`; otherwise follow the suffix
link of the ancestor; when the ancestor has no suffix link (the root), the
result is that ancestor. The Rust loop terminates because suffix links
strictly decrease depth; here the iteration count is bounded by `fuel`. -/
def suffixWalk (t : AcNode) (m : LinkMap) : Nat → List Nat → Nat → List Nat
  | 0, a, _ => a
  | fuel + 1, a, v =>
      if hasChild t a v then a ++ [v]
      else
        match lookupA m a with
        | some a2 => suffixWalk t m fuel a2 v
        | none => a

/-- Suffix-link entries produced for the children of the nodes of one
breadth-first level (the suffix half of `calculate_children_links`). -/
def levelEntries (t : AcNode) (m : LinkMap) (lvl : List (List Nat)) : LinkMap :=
  lvl.flatMap (fun p =>
    match lookupA m p with
    | some sl => (childKeys t p).map (fun v => (p ++ [v], suffixWalk t m (sl.length + 1) sl v))
    | none => [])

/-- Output-link entries for the same children: the suffix target itself when
it is a word, otherwise the output link of the suffix target (the output
half of `calculate_children_links`; an absent `Weak` is `none`). -/
def levelOuts (t : AcNode) (o : OutMap) (es : LinkMap) : OutMap :=
  es.map (fun e => (e.1, if isWordAt t e.2 then some e.2 else (lookupA o e.2).getD none))

/-- One iteration of the `while to_walk.len() > 0` loop of
`breadth_first_walk`: process every node of the current level, extending
both link maps, and collect the next level of paths. -/
def levelStep (t : AcNode) (m : LinkMap) (o : OutMap) (lvl : List (List Nat)) :
    (LinkMap × OutMap) × List (List Nat) :=
  let es := levelEntries t m lvl
  ((m ++ es, o ++ levelOuts t o es), lvl.flatMap (fun p => (childKeys t p).map (fun v => p ++ [v])))

/-- `breadth_first_walk` after `k` loop iterations: the link maps built so
far and the current worklist level. Level zero is the state right after the
initialisation of the first-level children, whose suffix link is the root
(the empty path) and which have no output-link entry. -/
def buildWalkAux (t : AcNode) : Nat → (LinkMap × OutMap) × List (List Nat)
  | 0 => (((childKeys t []).map (fun v => ([v], ([] : List Nat))), []),
          (childKeys t []).map (fun v => [v]))
  | k + 1 =>
      levelStep t (buildWalkAux t k).1.1 (buildWalkAux t k).1.2 (buildWalkAux t k).2

/-- The largest pattern length; the worklist loop of `breadth_first_walk`
runs exactly that many iterations before the level empties, so running the
level step this many times computes every link. -/
def maxWordLen (ws : List (List Nat × Option (List Nat))) : Nat :=
  ws.foldl (fun acc w => max acc w.1.length) 0

/-- The immutable automaton: the trie root plus the path-indexed suffix and
output link maps computed by the breadth-first walk. The movable cursor
(the `state` field in Rust) is carried separately by the engine state. -/
structure AcAutomaton where
  root : AcNode
  links : LinkMap
  outs : OutMap

/-- `AcAutomaton::new`: insert all words, then run the breadth-first walk. -/
def acNew (ws : List (List Nat × Option (List Nat))) : AcAutomaton :=
  let t := buildRoot ws
  ⟨t, (buildWalkAux t (maxWordLen ws)).1.1, (buildWalkAux t (maxWordLen ws)).1.2⟩

/-- `find_next_state`: move to the child labelled `v` when it exists,
otherwise retry from the suffix link target; a node without suffix link
(the root) keeps the current state. The Rust recursion is bounded by the
depth of the node; `fuel` makes that bound explicit. -/
def findNextStateF (a : AcAutomaton) : Nat → List Nat → Nat → List Nat
  | 0, p, _ => p
  | fuel + 1, p, v =>
      match nodeAt a.root p with
      | some n =>
          match lookupChild n.children v with
          | some _ => p ++ [v]
          | none =>
              match lookupA a.links p with
              | some q => findNextStateF a fuel q v
              | none => p
      | none => p

/-- `next_state`, with the sufficient iteration bound `p.length + 1`. -/
def nextState (a : AcAutomaton) (p : List Nat) (v : Nat) : List Nat :=
  findNextStateF a (p.length + 1) p v

/-- `is_state_root`: the current node has no suffix link. -/
def isStateRoot (a : AcAutomaton) (p : List Nat) : Bool :=
  (lookupA a.links p).isNone

/-- `is_state_word`. -/
def isStateWord (a : AcAutomaton) (p : List Nat) : Bool :=
  isWordAt a.root p

/-- `state_depth`: the stored depth field of the current node. -/
def stateDepth (a : AcAutomaton) (p : List Nat) : Nat :=
  match nodeAt a.root p with
  | some n => n.depth
  | none => 0

/-- `state_replacement`. -/
def stateReplacement (a : AcAutomaton) (p : List Nat) : Option (List Nat) :=
  match nodeAt a.root p with
  | some n => n.replacement
  | none => none

/-- The engine state shared by both adapters: the automaton cursor and the
potential-match buffer. -/
structure EngState where
  cursor : List Nat
  potential : List Nat
deriving DecidableEq

/-- The `while potential_buffer.len() > current_state_depth` loop of both
adapters: pop bytes from the front of the buffer and emit them while the
buffer is longer than `d`. Returns the emitted bytes and the remaining
buffer. -/
def drainLoop (d : Nat) : List Nat → List Nat × List Nat
  | [] => ([], [])
  | x :: rest =>
      if d < rest.length + 1 then
        match drainLoop d rest with
        | (e, r) => (x :: e, r)
      else ([], x :: rest)

/-- The `is_state_word` block of both adapters: with a replacement, clear
the potential buffer and emit the replacement bytes; without one, emit the
whole remaining potential buffer; in both cases reset the cursor to the
root. Without a word, keep the cursor and the remaining buffer. -/
def wordPhase (a : AcAutomaton) (p : List Nat) (rem : List Nat) (emitted : List Nat) :
    EngState × List Nat :=
  if isStateWord a p then
    match stateReplacement a p with
    | some r => (⟨[], []⟩, emitted ++ r)
    | none => (⟨[], []⟩, emitted ++ rem)
  else (⟨p, rem⟩, emitted)

/-- The per-byte body of the replace loops of `poll_read` and `poll_write`:
advance the cursor; at the root, flush the whole potential buffer (popped
front to back, hence in order) and emit the byte; otherwise push the byte
onto the buffer, drain it down to the current depth, then handle a word. -/
def processByte (a : AcAutomaton) (st : EngState) (b : Nat) : EngState × List Nat :=
  let p := nextState a st.cursor b
  let d := stateDepth a p
  if isStateRoot a p then
    (⟨p, []⟩, st.potential ++ [b])
  else
    let dr := drainLoop d (st.potential ++ [b])
    wordPhase a p dr.2 dr.1

/-- The whole `for byte in chunk` loop: fold `processByte`, concatenating
the emitted bytes in order. -/
def processChunk (a : AcAutomaton) (st : EngState) : List Nat → EngState × List Nat
  | [] => (st, [])
  | b :: rest =>
      let r1 := processByte a st b
      let r2 := processChunk a r1.1 rest
      (r2.1, r1.2 ++ r2.2)

/-- Output of a full run over one input: the emitted bytes followed by the
end-of-stream flush of the residual potential buffer. -/
def engineFull (a : AcAutomaton) (input : List Nat) : List Nat :=
  (processChunk a ⟨[], []⟩ input).2 ++ (processChunk a ⟨[], []⟩ input).1.potential

/-- One poll outcome of the upstream source of the reader: a chunk of that
many bytes was read, an io error occurred, or the source is not ready. An
exhausted event list stands for a source that keeps reporting zero bytes. -/
inductive SrcEv : Type where
  | chunk : List Nat → SrcEv
  | fail : Nat → SrcEv
  | busy : SrcEv
deriving DecidableEq

/-- Result of one `poll_read` of the wrapping reader: `bytes bs` is
`Ready(Ok(bs.length))` with `bs` written into the caller buffer (so
`bytes []` is end of stream), `ioError` is `Ready(Err(..))`, `notReady` is
`Pending` with no wake-up, `retry` is the `Pending` issued together with
`wake_by_ref` when a chunk was consumed but nothing could be written. -/
inductive ReadRes : Type where
  | bytes : List Nat → ReadRes
  | ioError : Nat → ReadRes
  | notReady : ReadRes
  | retry : ReadRes
deriving DecidableEq

/-- State of `AhoCorasickAsyncReader`: engine cursor, potential buffer,
`pending_write_buffer`, and the remaining source events. -/
structure RState where
  cursor : List Nat
  potential : List Nat
  pending : List Nat
  src : List SrcEv
deriving DecidableEq

/-- One `AhoCorasickAsyncReader::poll_read` with a caller buffer of
`bufLen` bytes: drain the pending buffer first and return early when that
fills the caller buffer; otherwise poll the source and either flush the
potential buffer (zero-byte read), run the engine over the chunk (writing
overflow into the pending buffer), propagate an error, or handle a pending
source. -/
def pollRead (a : AcAutomaton) (bufLen : Nat) (s : RState) : RState × ReadRes :=
  let w1 := s.pending.take bufLen
  let pend1 := s.pending.drop bufLen
  if bufLen ≤ w1.length then
    (⟨s.cursor, s.potential, pend1, s.src⟩, .bytes w1)
  else
    match s.src with
    | [] =>
        let all := w1 ++ s.potential
        (⟨s.cursor, [], pend1 ++ all.drop bufLen, []⟩, .bytes (all.take bufLen))
    | ev :: rest =>
        match ev with
        | .chunk c =>
            if c = [] then
              let all := w1 ++ s.potential
              (⟨s.cursor, [], pend1 ++ all.drop bufLen, rest⟩, .bytes (all.take bufLen))
            else
              let r := processChunk a ⟨s.cursor, s.potential⟩ c
              let all := w1 ++ r.2
              let s' : RState := ⟨r.1.cursor, r.1.potential, pend1 ++ all.drop bufLen, rest⟩
              if (all.take bufLen).length = 0 then (s', .retry)
              else (s', .bytes (all.take bufLen))
        | .fail e => (⟨s.cursor, s.potential, pend1, rest⟩, .ioError e)
        | .busy =>
            if w1.length = 0 then (⟨s.cursor, s.potential, pend1, rest⟩, .notReady)
            else (⟨s.cursor, s.potential, pend1, rest⟩, .bytes w1)

/-- Drive the reader to completion: poll repeatedly, accumulating the bytes
delivered to the caller, until a zero-byte read signals end of stream.
Returns `none` when the step budget runs out or the source misbehaves. -/
def driveReader (a : AcAutomaton) (bufLen : Nat) : Nat → RState → List Nat → Option (List Nat)
  | 0, _, _ => none
  | fuel + 1, s, acc =>
      match pollRead a bufLen s with
      | (s', .bytes bs) => if bs = [] then some acc else driveReader a bufLen fuel s' (acc ++ bs)
      | (s', .retry) => driveReader a bufLen fuel s' acc
      | (_, .ioError _) => none
      | (_, .notReady) => none

/-- One poll outcome of the downstream sink of the writer. -/
inductive SinkRes : Type where
  | ok : SinkRes
  | err : Nat → SinkRes
  | notReady : SinkRes
deriving DecidableEq

/-- Result of one `poll_write` of the wrapping writer: `Ready(Ok(n))`,
`Ready(Err(..))` or `Pending`. -/
inductive WriteRes : Type where
  | accepted : Nat → WriteRes
  | ioError : Nat → WriteRes
  | notReady : WriteRes
deriving DecidableEq

/-- Result of one `poll_close` of the wrapping writer. -/
inductive CloseRes : Type where
  | closed : CloseRes
  | ioError : Nat → CloseRes
  | notReady : CloseRes
deriving DecidableEq

/-- State of `AhoCorasickAsyncWriter`: engine cursor, potential buffer, the
saved `PendingState` (the buffered output slice still to send and the input
length already consumed), and the bytes the sink has accepted so far. -/
structure WState where
  cursor : List Nat
  potential : List Nat
  pendingSt : Option (List Nat × Nat)
  sink : List Nat
deriving DecidableEq

/-- One `AhoCorasickAsyncWriter::poll_write` on input `input`, with the
sink answering `resp`: re-send a saved pending slice first (the Rust
`Poll::Ready(_)` match arm ignores a sink error and reports the saved
consumed count); otherwise run the engine over the input and forward the
produced bytes, saving a `PendingState` when the sink is not ready, and in
every completed case report the full input length as accepted. -/
def pollWrite (a : AcAutomaton) (s : WState) (input : List Nat) (resp : SinkRes) :
    WState × WriteRes :=
  match s.pendingSt with
  | some pst =>
      match resp with
      | .ok => (⟨s.cursor, s.potential, none, s.sink ++ pst.1⟩, .accepted pst.2)
      | .err _ => (⟨s.cursor, s.potential, none, s.sink⟩, .accepted pst.2)
      | .notReady => (s, .notReady)
  | none =>
      let r := processChunk a ⟨s.cursor, s.potential⟩ input
      if 0 < r.2.length then
        match resp with
        | .ok => (⟨r.1.cursor, r.1.potential, none, s.sink ++ r.2⟩, .accepted input.length)
        | .err _ => (⟨r.1.cursor, r.1.potential, none, s.sink⟩, .accepted input.length)
        | .notReady => (⟨r.1.cursor, r.1.potential, some (r.2, input.length), s.sink⟩, .notReady)
      else (⟨r.1.cursor, r.1.potential, none, s.sink⟩, .accepted input.length)

/-- The result of delegating `poll_close` to the sink. -/
def sinkCloseRes : SinkRes → CloseRes
  | .ok => .closed
  | .err e => .ioError e
  | .notReady => .notReady

/-- One `AhoCorasickAsyncWriter::poll_close`: with a residual potential
buffer, send it to the sink (the `Poll::Ready(_)` arm again ignores a sink
error), clear it and request another close poll; otherwise delegate to the
close of the sink. -/
def pollClose (s : WState) (resp : SinkRes) : WState × CloseRes :=
  if s.potential.length = 0 then (s, sinkCloseRes resp)
  else
    match resp with
    | .ok => (⟨s.cursor, [], s.pendingSt, s.sink ++ s.potential⟩, .notReady)
    | .err _ => (⟨s.cursor, [], s.pendingSt, s.sink⟩, .notReady)
    | .notReady => (s, .notReady)

/-- Drive the writer over a list of input chunks with an always-ready sink,
then close it (as `try_stream_replace_all` does); the result is the byte
sequence the sink accepted. -/
def driveWriter (a : AcAutomaton) : Nat → WState → List (List Nat) → Option (List Nat)
  | 0, _, _ => none
  | fuel + 1, s, chunks =>
      match chunks with
      | c :: rest =>
          match pollWrite a s c SinkRes.ok with
          | (s', WriteRes.accepted _) => driveWriter a fuel s' rest
          | _ => none
      | [] =>
          match pollClose s SinkRes.ok with
          | (s', CloseRes.closed) => some s'.sink
          | (s', CloseRes.notReady) => driveWriter a fuel s' []
          | _ => none

/-! ### Association list lemmas -/

theorem lookupA_append {α : Type} (xs ys : List (List Nat × α)) (p : List Nat) :
    lookupA (xs ++ ys) p =
      match lookupA xs p with
      | some v => some v
      | none => lookupA ys p := by
  induction xs with
  | nil => simp [lookupA]
  | cons hd tl ih =>
      match hd with
      | (k, x) =>
          by_cases hk : k = p
          · simp [lookupA, hk]
          · simp [lookupA, hk, ih]

theorem lookupA_eq_some_mem {α : Type} {l : List (List Nat × α)} {p : List Nat} {v : α}
    (h : lookupA l p = some v) : (p, v) ∈ l := by
  induction l with
  | nil => simp [lookupA] at h
  | cons hd tl ih =>
      match hd with
      | (k, x) =>
          by_cases hk : k = p
          · simp [lookupA, hk] at h
            simp [hk, h]
          · simp [lookupA, hk] at h
            exact List.mem_cons_of_mem _ (ih h)

theorem lookupA_isSome_of_mem {α : Type} {l : List (List Nat × α)} {p : List Nat} {v : α}
    (h : (p, v) ∈ l) : (lookupA l p).isSome := by
  induction l with
  | nil => simp at h
  | cons hd tl ih =>
      match hd with
      | (k, x) =>
          by_cases hk : k = p
          · simp [lookupA, hk]
          · simp [lookupA, hk]
            rcases List.mem_cons.mp h with h1 | h1
            · cases h1
              simp at hk
            · exact ih h1

theorem lookupA_of_mem_unique {α : Type} {l : List (List Nat × α)} {p : List Nat} {v : α}
    (huniq : ∀ v1 v2, (p, v1) ∈ l → (p, v2) ∈ l → v1 = v2)
    (h : (p, v) ∈ l) : lookupA l p = some v := by
  induction l with
  | nil => simp at h
  | cons hd tl ih =>
      match hd with
      | (k, x) =>
          by_cases hk : k = p
          · subst hk
            simp [lookupA]
            exact huniq x v (by simp) h
          · simp [lookupA, hk]
            rcases List.mem_cons.mp h with h1 | h1
            · cases h1
              simp at hk
            · exact ih (fun v1 v2 m1 m2 => huniq v1 v2 (List.mem_cons_of_mem _ m1)
                (List.mem_cons_of_mem _ m2)) h1

theorem lookupA_isNone {α : Type} {l : List (List Nat × α)} {p : List Nat}
    (h : ∀ v, ¬ (p, v) ∈ l) : lookupA l p = none := by
  cases hl : lookupA l p with
  | none => rfl
  | some v => exact absurd (lookupA_eq_some_mem hl) (h v)

/-! ### Drain loop and chunk processing lemmas -/

/-- The pop-and-emit loop emits exactly the front part of the buffer that
sticks out beyond depth `d`, keeping the last `d` bytes. -/
theorem drainLoop_eq (d : Nat) (l : List Nat) :
    drainLoop d l = (l.take (l.length - d), l.drop (l.length - d)) := by
  induction l with
  | nil => simp [drainLoop]
  | cons x rest ih =>
      by_cases h : d < rest.length + 1
      · have hlen : (x :: rest).length - d = (rest.length - d) + 1 := by
          simp only [List.length_cons]
          omega
        simp only [drainLoop, if_pos h, ih, hlen, List.take_succ_cons, List.drop_succ_cons]
      · have hlen : rest.length + 1 - d = 0 := by omega
        simp [drainLoop, if_neg h, hlen]

/-- Processing a concatenation of chunks equals processing them in
sequence: the engine state threads through and the outputs concatenate. -/
theorem processChunk_append (a : AcAutomaton) (st : EngState) (xs ys : List Nat) :
    processChunk a st (xs ++ ys) =
      ((processChunk a (processChunk a st xs).1 ys).1,
        (processChunk a st xs).2 ++ (processChunk a (processChunk a st xs).1 ys).2) := by
  induction xs generalizing st with
  | nil => simp [processChunk]
  | cons b rest ih =>
      simp only [List.cons_append, processChunk, List.append_eq]
      rw [ih (processByte a st b).1]
      simp [List.append_assoc]

/-- C2: for every processed input byte, after advancing the cursor: at the
root, the whole potential-match buffer is emitted oldest first followed by
the byte itself; otherwise the byte is appended to the buffer and bytes are
popped from the front and emitted while the buffer is longer than the
cursor depth, which keeps exactly the last `stateDepth` bytes (the word
handling of the reached node then runs on that drained buffer). -/
theorem claim_c2_engine_step (a : AcAutomaton) (st : EngState) (b : Nat) :
    processByte a st b =
      if isStateRoot a (nextState a st.cursor b) then
        (⟨nextState a st.cursor b, []⟩, st.potential ++ [b])
      else
        wordPhase a (nextState a st.cursor b)
          ((st.potential ++ [b]).drop
            ((st.potential ++ [b]).length - stateDepth a (nextState a st.cursor b)))
          ((st.potential ++ [b]).take
            ((st.potential ++ [b]).length - stateDepth a (nextState a st.cursor b))) := by
  simp only [processByte, drainLoop_eq]

/-! ### Trie structure lemmas -/

theorem lookupChild_setChild_self (cs : List (Nat × AcNode)) (v : Nat) (n : AcNode) :
    lookupChild (setChild cs v n) v = some n := by
  induction cs with
  | nil => simp [setChild, lookupChild]
  | cons hd tl ih =>
      match hd with
      | (k, m) =>
          by_cases hk : k = v
          · simp [setChild, hk, lookupChild]
          · simp [setChild, hk, lookupChild, ih]

theorem lookupChild_setChild_other (cs : List (Nat × AcNode)) (v w : Nat) (n : AcNode)
    (hvw : v ≠ w) : lookupChild (setChild cs v n) w = lookupChild cs w := by
  induction cs with
  | nil => simp [setChild, lookupChild, hvw]
  | cons hd tl ih =>
      match hd with
      | (k, m) =>
          by_cases hk : k = v
          · subst hk
            simp [setChild, lookupChild, hvw]
          · simp [setChild, hk, lookupChild, ih]

theorem nodeAt_snoc (t : AcNode) (p : List Nat) (v : Nat) :
    nodeAt t (p ++ [v]) =
      match nodeAt t p with
      | some n => lookupChild n.children v
      | none => none := by
  induction p generalizing t with
  | nil =>
      simp only [List.nil_append, nodeAt]
      cases lookupChild t.children v <;> simp [nodeAt]
  | cons w rest ih =>
      simp only [List.cons_append, nodeAt]
      cases lookupChild t.children w with
      | none => rfl
      | some c => exact ih c

/-- Children and flags of the node returned by `addWord` at the root. -/
theorem addWord_children (w : List Nat) (n : AcNode) (repl : Option (List Nat)) :
    (addWord w n repl).children =
      match w with
      | [] => n.children
      | v :: rest =>
          setChild n.children v
            (addWord rest
              (match lookupChild n.children v with
               | some c => c
               | none => .mk (n.depth + 1) [] false none) repl) := by
  cases w <;> simp [addWord, AcNode.children]

theorem addWord_isWord (w : List Nat) (n : AcNode) (repl : Option (List Nat)) :
    (addWord w n repl).isWord = (if w = [] then true else n.isWord) := by
  cases w <;> simp [addWord, AcNode.isWord]

theorem addWord_depth (w : List Nat) (n : AcNode) (repl : Option (List Nat)) :
    (addWord w n repl).depth = n.depth := by
  cases w <;> simp [addWord, AcNode.depth]


/-- Paths valid after one insertion: the previously valid paths plus every
path that continues into the inserted word. -/
theorem validPath_addWord (w : List Nat) (n : AcNode) (repl : Option (List Nat)) (p : List Nat) :
    validPath (addWord w n repl) p = true ↔
      (validPath n p = true ∨ ∃ s, p ++ s = w) := by
  induction w generalizing n p with
  | nil =>
      cases n with
      | mk nd nc nw nr =>
          cases p with
          | nil => simp [validPath, nodeAt, addWord]
          | cons v rest =>
              simp only [validPath, addWord, nodeAt, AcNode.children, AcNode.depth]
              simp
  | cons u w' ih =>
      cases n with
      | mk nd nc nw nr =>
          cases p with
          | nil => simp [validPath, nodeAt]
          | cons v rest =>
              by_cases hv : v = u
              · subst hv
                simp only [validPath, addWord, nodeAt, AcNode.children, AcNode.depth,
                  lookupChild_setChild_self]
                cases hc : lookupChild nc v with
                | some c =>
                    have hihc := ih c rest
                    simp only [validPath] at hihc
                    rw [hihc]
                    simp [hc]
                | none =>
                    have hihc := ih (AcNode.mk (nd + 1) [] false none) rest
                    simp only [validPath] at hihc
                    rw [hihc]
                    have hrest : ∀ q, (nodeAt (AcNode.mk (nd + 1) [] false none) q).isSome
                        = true ↔ q = [] := by
                      intro q
                      cases q with
                      | nil => simp [nodeAt]
                      | cons x xs => simp [nodeAt, AcNode.children, lookupChild]
                    rw [hrest rest]
                    simp [hc]
                    rintro rfl
                    exact ⟨w', rfl⟩
              · simp only [validPath, addWord, nodeAt, AcNode.children, AcNode.depth,
                  lookupChild_setChild_other nc u v _ (fun h => hv h.symm)]
                constructor
                · intro h
                  exact Or.inl h
                · rintro (h | ⟨s, hs⟩)
                  · exact h
                  · simp at hs
                    exact absurd hs.1 hv

/-- Valid paths of the built trie: the root and the proper stems of the
inserted patterns. -/
theorem validPath_buildRoot (ws : List (List Nat × Option (List Nat))) (p : List Nat) :
    validPath (buildRoot ws) p = true ↔
      (p = [] ∨ ∃ w ∈ ws, ∃ s, p ++ s = w.1) := by
  have general : ∀ (l : List (List Nat × Option (List Nat))) (n : AcNode) (p : List Nat),
      validPath (l.foldl (fun n w => addWord w.1 n w.2) n) p = true ↔
        (validPath n p = true ∨ ∃ w ∈ l, ∃ s, p ++ s = w.1) := by
    intro l
    induction l with
    | nil => simp
    | cons hd tl ih =>
        intro n p
        simp only [List.foldl_cons]
        rw [ih (addWord hd.1 n hd.2) p, validPath_addWord]
        constructor
        · rintro ((h | ⟨s, hs⟩) | ⟨w, hw, s, hs⟩)
          · exact Or.inl h
          · exact Or.inr ⟨hd, by simp, s, hs⟩
          · exact Or.inr ⟨w, List.mem_cons_of_mem _ hw, s, hs⟩
        · rintro (h | ⟨w, hw, s, hs⟩)
          · exact Or.inl (Or.inl h)
          · rcases List.mem_cons.mp hw with h1 | h1
            · subst h1
              exact Or.inl (Or.inr ⟨s, hs⟩)
            · exact Or.inr ⟨w, h1, s, hs⟩
  rw [buildRoot, general]
  have : validPath rootNode p = true ↔ p = [] := by
    cases p with
    | nil => simp [validPath, nodeAt]
    | cons v rest => simp [validPath, nodeAt, rootNode, AcNode.children, lookupChild]
  rw [this]

theorem mem_le_maxWordLen (ws : List (List Nat × Option (List Nat)))
    (w : List Nat × Option (List Nat)) (hw : w ∈ ws) : w.1.length ≤ maxWordLen ws := by
  have general : ∀ (l : List (List Nat × Option (List Nat))) (acc : Nat),
      acc ≤ l.foldl (fun acc w => max acc w.1.length) acc ∧
      (∀ w ∈ l, w.1.length ≤ l.foldl (fun acc w => max acc w.1.length) acc) := by
    intro l
    induction l with
    | nil => simp
    | cons hd tl ih =>
        intro acc
        constructor
        · calc acc ≤ max acc hd.1.length := Nat.le_max_left _ _
            _ ≤ _ := (ih (max acc hd.1.length)).1
        · intro w hw
          rcases List.mem_cons.mp hw with h1 | h1
          · subst h1
            calc w.1.length ≤ max acc w.1.length := Nat.le_max_right _ _
              _ ≤ _ := (ih (max acc w.1.length)).1
          · exact (ih (max acc hd.1.length)).2 w h1
  exact (general ws 0).2 w hw

/-- Every valid path fits inside the longest pattern. -/
theorem validPath_length_le (ws : List (List Nat × Option (List Nat))) (p : List Nat)
    (h : validPath (buildRoot ws) p = true) : p.length ≤ maxWordLen ws := by
  rcases (validPath_buildRoot ws p).mp h with h1 | ⟨w, hw, s, hs⟩
  · simp [h1]
  · have := mem_le_maxWordLen ws w hw
    have hlen : p.length + s.length = w.1.length := by
      rw [← hs]
      simp
    omega

/-- The root of the built trie carries the word flag only when some empty
pattern was inserted. -/
theorem buildRoot_isWord (ws : List (List Nat × Option (List Nat)))
    (h : (buildRoot ws).isWord = true) : ∃ w ∈ ws, w.1 = [] := by
  have general : ∀ (l : List (List Nat × Option (List Nat))) (n : AcNode),
      (l.foldl (fun n w => addWord w.1 n w.2) n).isWord = true →
        n.isWord = true ∨ ∃ w ∈ l, w.1 = [] := by
    intro l
    induction l with
    | nil => intro n h; exact Or.inl h
    | cons hd tl ih =>
        intro n h
        simp only [List.foldl_cons] at h
        rcases ih (addWord hd.1 n hd.2) h with h1 | ⟨w, hw, hw1⟩
        · rw [addWord_isWord] at h1
          by_cases he : hd.1 = []
          · exact Or.inr ⟨hd, by simp, he⟩
          · rw [if_neg he] at h1
            exact Or.inl h1
        · exact Or.inr ⟨w, List.mem_cons_of_mem _ hw, hw1⟩
  rcases general ws rootNode h with h1 | h1
  · simp [rootNode, AcNode.isWord] at h1
  · exact h1

/-- Depth fields agree with path lengths, relative to a base depth. -/
def depthOk (t : AcNode) (base : Nat) : Prop :=
  ∀ p n', nodeAt t p = some n' → n'.depth = base + p.length

theorem depthOk_addWord (w : List Nat) (n : AcNode) (repl : Option (List Nat)) (base : Nat)
    (h : depthOk n base) : depthOk (addWord w n repl) base := by
  induction w generalizing n base with
  | nil =>
      intro p n' hp
      cases n with
      | mk nd nc nw nr =>
          cases p with
          | nil =>
              simp only [addWord, nodeAt, AcNode.depth, AcNode.children,
                Option.some_inj] at hp
              have := h [] (AcNode.mk nd nc nw nr) rfl
              simp only [AcNode.depth] at this
              subst hp
              simpa [AcNode.depth] using this
          | cons v rest =>
              simp only [addWord, nodeAt, AcNode.children, AcNode.depth] at hp
              exact h (v :: rest) n' (by simpa [nodeAt] using hp)
  | cons u w' ih =>
      intro p n' hp
      cases n with
      | mk nd nc nw nr =>
          have hbase : nd = base := by
            have := h [] (AcNode.mk nd nc nw nr) rfl
            simpa [AcNode.depth] using this
          cases p with
          | nil =>
              simp only [addWord, nodeAt, Option.some_inj] at hp
              subst hp
              simpa [AcNode.depth] using hbase
          | cons v rest =>
              simp only [addWord, nodeAt, AcNode.children, AcNode.depth] at hp
              by_cases hv : v = u
              · subst hv
                rw [lookupChild_setChild_self] at hp
                have hchild : depthOk
                    (match lookupChild nc v with
                     | some c => c
                     | none => AcNode.mk (nd + 1) [] false none) (base + 1) := by
                  cases hc : lookupChild nc v with
                  | some c =>
                      intro q m hq
                      have := h (v :: q) m (by simp [nodeAt, AcNode.children, hc, hq])
                      simp at this
                      omega
                  | none =>
                      intro q m hq
                      cases q with
                      | nil =>
                          simp only [nodeAt, Option.some_inj] at hq
                          subst hq
                          simp [AcNode.depth]
                          omega
                      | cons x xs =>
                          simp [nodeAt, AcNode.children, lookupChild] at hq
                have := ih _ (base + 1) hchild rest n' hp
                simp at this ⊢
                omega
              · rw [lookupChild_setChild_other nc u v _ (fun hh => hv hh.symm)] at hp
                exact h (v :: rest) n' (by simpa [nodeAt, AcNode.children] using hp)

theorem depthOk_buildRoot (ws : List (List Nat × Option (List Nat))) :
    depthOk (buildRoot ws) 0 := by
  have general : ∀ (l : List (List Nat × Option (List Nat))) (n : AcNode),
      depthOk n 0 → depthOk (l.foldl (fun n w => addWord w.1 n w.2) n) 0 := by
    intro l
    induction l with
    | nil => intro n h; exact h
    | cons hd tl ih =>
        intro n h
        exact ih _ (depthOk_addWord hd.1 n hd.2 0 h)
  refine general ws rootNode ?_
  intro p n' hp
  cases p with
  | nil =>
      simp only [rootNode, nodeAt, Option.some_inj] at hp
      subst hp
      simp [AcNode.depth]
  | cons v rest => simp [rootNode, nodeAt, AcNode.children, lookupChild] at hp

/-! ### Suffix walk lemmas -/

theorem lookupChild_isSome_iff_mem (cs : List (Nat × AcNode)) (v : Nat) :
    (lookupChild cs v).isSome = true ↔ v ∈ cs.map Prod.fst := by
  induction cs with
  | nil => simp [lookupChild]
  | cons hd tl ih =>
      match hd with
      | (k, n) =>
          by_cases hk : k = v
          · simp [lookupChild, hk]
          · rw [show lookupChild ((k, n) :: tl) v = lookupChild tl v by
                simp [lookupChild, hk], ih]
            simp only [List.map_cons, List.mem_cons]
            constructor
            · exact fun h => Or.inr h
            · rintro (h | h)
              · exact absurd h.symm hk
              · exact h

theorem hasChild_iff_validPath (t : AcNode) (a : List Nat) (v : Nat) :
    hasChild t a v = true ↔ validPath t (a ++ [v]) = true := by
  rw [validPath, nodeAt_snoc]
  unfold hasChild
  cases h : nodeAt t a with
  | none => simp
  | some n => cases lookupChild n.children v <;> simp

theorem mem_childKeys_iff (t : AcNode) (p : List Nat) (v : Nat) :
    v ∈ childKeys t p ↔ hasChild t p v = true := by
  unfold childKeys hasChild
  cases h : nodeAt t p with
  | none => simp
  | some n => rw [lookupChild_isSome_iff_mem]

/-- The suffix-search loop lands on a valid node of depth at most one more
than its start, for any link map sending paths to strictly shorter valid
paths. -/
theorem suffixWalk_valid_le (t : AcNode) (m : LinkMap)
    (hm : ∀ q s, lookupA m q = some s → validPath t s = true ∧ s.length < q.length)
    (fuel : Nat) :
    ∀ a v, validPath t a = true →
      validPath t (suffixWalk t m fuel a v) = true ∧
        (suffixWalk t m fuel a v).length ≤ a.length + 1 := by
  induction fuel with
  | zero =>
      intro a v ha
      exact ⟨ha, by simp [suffixWalk]⟩
  | succ fuel ih =>
      intro a v ha
      by_cases hc : hasChild t a v = true
      · simp only [suffixWalk, if_pos hc]
        exact ⟨(hasChild_iff_validPath t a v).mp hc, by simp⟩
      · simp only [suffixWalk, if_neg hc]
        cases hl : lookupA m a with
        | some a2 =>
            rcases hm a a2 hl with ⟨hv2, hlen2⟩
            rcases ih a2 v hv2 with ⟨hv3, hlen3⟩
            refine ⟨hv3, ?_⟩
            show (suffixWalk t m fuel a2 v).length ≤ a.length + 1
            omega
        | none =>
            refine ⟨ha, ?_⟩
            show a.length ≤ a.length + 1
            omega

/-- The suffix-search loop only reads link entries of paths no longer than
its starting path, so extending the map with longer keys does not change
it. -/
theorem suffixWalk_agree (t : AcNode) (m m' : LinkMap) (B : Nat)
    (hshort : ∀ q s, lookupA m q = some s → s.length < q.length)
    (hagree : ∀ q, q.length ≤ B → lookupA m' q = lookupA m q)
    (fuel : Nat) :
    ∀ a v, a.length ≤ B → suffixWalk t m' fuel a v = suffixWalk t m fuel a v := by
  induction fuel with
  | zero => intro a v _; rfl
  | succ fuel ih =>
      intro a v hB
      by_cases hc : hasChild t a v = true
      · simp only [suffixWalk, if_pos hc]
      · simp only [suffixWalk, if_neg hc, hagree a hB]
        cases hl : lookupA m a with
        | some a2 =>
            have := hshort a a2 hl
            exact ih a2 v (by omega)
        | none => rfl

/-! ### Breadth-first walk invariant -/

theorem exists_snoc (p : List Nat) (h : p ≠ []) : ∃ q v, p = q ++ [v] := by
  rcases List.eq_nil_or_concat p with h1 | ⟨L, b, h1⟩
  · exact absurd h1 h
  · exact ⟨L, b, by simpa [List.concat_eq_append] using h1⟩

theorem snoc_inj {q p : List Nat} {v w : Nat} (h : q ++ [v] = p ++ [w])
    (hlen : q.length = p.length) : q = p ∧ v = w := by
  rcases List.append_inj h hlen with ⟨h1, h2⟩
  simp at h2
  exact ⟨h1, h2⟩

theorem mem_levelEntries (t : AcNode) (m : LinkMap) (lvl : List (List Nat))
    (e : List Nat × List Nat) :
    e ∈ levelEntries t m lvl ↔
      ∃ p sl v, p ∈ lvl ∧ lookupA m p = some sl ∧ v ∈ childKeys t p ∧
        e = (p ++ [v], suffixWalk t m (sl.length + 1) sl v) := by
  unfold levelEntries
  rw [List.mem_flatMap]
  constructor
  · rintro ⟨p, hp, he⟩
    cases hl : lookupA m p with
    | none => rw [hl] at he; simp at he
    | some sl =>
        rw [hl] at he
        rcases List.mem_map.mp he with ⟨v, hv, hev⟩
        exact ⟨p, sl, v, hp, hl, hv, hev.symm⟩
  · rintro ⟨p, sl, v, hp, hl, hv, he⟩
    refine ⟨p, hp, ?_⟩
    rw [hl, he]
    exact List.mem_map.mpr ⟨v, hv, rfl⟩

theorem mem_levelOuts (t : AcNode) (o : OutMap) (es : LinkMap)
    (e : List Nat × Option (List Nat)) :
    e ∈ levelOuts t o es ↔
      ∃ c s, (c, s) ∈ es ∧
        e = (c, if isWordAt t s then some s else (lookupA o s).getD none) := by
  unfold levelOuts
  rw [List.mem_map]
  constructor
  · rintro ⟨⟨c, s⟩, hm, he⟩
    exact ⟨c, s, hm, he.symm⟩
  · rintro ⟨c, s, hm, he⟩
    exact ⟨(c, s), hm, he.symm⟩

theorem mem_nextLevel (t : AcNode) (lvl : List (List Nat)) (p : List Nat) :
    p ∈ lvl.flatMap (fun q => (childKeys t q).map (fun v => q ++ [v])) ↔
      ∃ q v, q ∈ lvl ∧ v ∈ childKeys t q ∧ p = q ++ [v] := by
  rw [List.mem_flatMap]
  constructor
  · rintro ⟨q, hq, hp⟩
    rcases List.mem_map.mp hp with ⟨v, hv, he⟩
    exact ⟨q, v, hq, hv, he.symm⟩
  · rintro ⟨q, v, hq, hv, he⟩
    exact ⟨q, hq, List.mem_map.mpr ⟨v, hv, he.symm⟩⟩

/-- Invariant of the breadth-first walk after `k` level steps over trie
`t`: the worklist holds exactly the valid paths of depth `k + 1`; the
suffix map binds exactly the nonempty valid paths of depth up to `k + 1`,
sending each to a strictly shorter valid path; first-level entries point at
the root, deeper entries satisfy the suffix-search recurrence; the output
map binds exactly the valid paths of depth 2 to `k + 1` and satisfies the
output-link recurrence. -/
structure WalkInv (t : AcNode) (k : Nat) (m : LinkMap) (o : OutMap)
    (lvl : List (List Nat)) : Prop where
  lvlMem : ∀ p, p ∈ lvl ↔ (validPath t p = true ∧ p.length = k + 1)
  mKey : ∀ p s, lookupA m p = some s →
    validPath t p = true ∧ 1 ≤ p.length ∧ p.length ≤ k + 1 ∧
      validPath t s = true ∧ s.length < p.length
  mTotal : ∀ p, validPath t p = true → 1 ≤ p.length → p.length ≤ k + 1 →
    (lookupA m p).isSome = true
  mRec1 : ∀ v s, lookupA m [v] = some s → s = []
  mRecS : ∀ p v s, p ≠ [] → lookupA m (p ++ [v]) = some s →
    ∃ sl, lookupA m p = some sl ∧ s = suffixWalk t m (sl.length + 1) sl v
  oKey : ∀ c ov, lookupA o c = some ov →
    2 ≤ c.length ∧ ∃ s, lookupA m c = some s ∧
      ov = (if isWordAt t s then some s else (lookupA o s).getD none)
  oTotal : ∀ c, validPath t c = true → 2 ≤ c.length → c.length ≤ k + 1 →
    (lookupA o c).isSome = true

theorem walkInv_zero (t : AcNode) :
    WalkInv t 0 ((childKeys t []).map (fun v => ([v], ([] : List Nat)))) []
      ((childKeys t []).map (fun v => [v])) := by
  have hmem : ∀ p s, (p, s) ∈ (childKeys t []).map (fun v => ([v], ([] : List Nat))) ↔
      ∃ v, v ∈ childKeys t [] ∧ p = [v] ∧ s = [] := by
    intro p s
    rw [List.mem_map]
    constructor
    · rintro ⟨v, hv, he⟩
      cases he
      exact ⟨v, hv, rfl, rfl⟩
    · rintro ⟨v, hv, he1, he2⟩
      exact ⟨v, hv, by rw [he1, he2]⟩
  have hvalid1 : ∀ v, v ∈ childKeys t [] ↔ validPath t [v] = true := by
    intro v
    rw [mem_childKeys_iff, hasChild_iff_validPath]
    simp
  constructor
  · intro p
    rw [List.mem_map]
    constructor
    · rintro ⟨v, hv, he⟩
      subst he
      exact ⟨(hvalid1 v).mp hv, rfl⟩
    · rintro ⟨hval, hlen⟩
      cases p with
      | nil => simp at hlen
      | cons v rest =>
          simp at hlen
          subst hlen
          exact ⟨v, (hvalid1 v).mpr hval, rfl⟩
  · intro p s h
    rcases (hmem p s).mp (lookupA_eq_some_mem h) with ⟨v, hv, hp, hs⟩
    subst hp
    subst hs
    refine ⟨(hvalid1 v).mp hv, by simp, by simp, by simp [validPath, nodeAt], by simp⟩
  · intro p hval h1 h2
    cases p with
    | nil => simp at h1
    | cons v rest =>
        simp at h2
        subst h2
        exact lookupA_isSome_of_mem ((hmem [v] []).mpr ⟨v, (hvalid1 v).mpr hval, rfl, rfl⟩)
  · intro v s h
    rcases (hmem [v] s).mp (lookupA_eq_some_mem h) with ⟨w, hw, hp, hs⟩
    exact hs
  · intro p v s hp h
    rcases (hmem (p ++ [v]) s).mp (lookupA_eq_some_mem h) with ⟨w, hw, hpv, hs⟩
    exfalso
    have : p.length + 1 = 1 := by
      have := congrArg List.length hpv
      simpa using this
    have : p = [] := by
      cases p with
      | nil => rfl
      | cons x xs => simp at this
    exact hp this
  · intro c ov h
    simp [lookupA] at h
  · intro c hval h1 h2
    omega

theorem lookupA_append_some {α : Type} {xs ys : List (List Nat × α)} {p : List Nat} {v : α}
    (h : lookupA (xs ++ ys) p = some v) :
    lookupA xs p = some v ∨ (lookupA xs p = none ∧ lookupA ys p = some v) := by
  rw [lookupA_append] at h
  cases hl : lookupA xs p with
  | some w =>
      rw [hl] at h
      exact Or.inl h
  | none =>
      rw [hl] at h
      exact Or.inr ⟨rfl, h⟩

theorem lookupA_append_left {α : Type} {xs ys : List (List Nat × α)} {p : List Nat} {v : α}
    (h : lookupA xs p = some v) : lookupA (xs ++ ys) p = some v := by
  rw [lookupA_append, h]

theorem lookupA_append_right {α : Type} {xs ys : List (List Nat × α)} {p : List Nat} {v : α}
    (h1 : lookupA xs p = none) (h2 : lookupA ys p = some v) :
    lookupA (xs ++ ys) p = some v := by
  rw [lookupA_append, h1]
  exact h2

/-- One level step preserves the walk invariant, moving it one depth
further down. -/
theorem walkInv_step (t : AcNode) (k : Nat) (m : LinkMap) (o : OutMap)
    (lvl : List (List Nat)) (inv : WalkInv t k m o lvl) :
    WalkInv t (k + 1) (m ++ levelEntries t m lvl)
      (o ++ levelOuts t o (levelEntries t m lvl))
      (lvl.flatMap (fun p => (childKeys t p).map (fun v => p ++ [v]))) := by
  set es := levelEntries t m lvl with hes
  set os := levelOuts t o es with hos
  have hEsVal : ∀ c s, (c, s) ∈ es →
      ∃ p sl v, p ∈ lvl ∧ lookupA m p = some sl ∧ v ∈ childKeys t p ∧
        c = p ++ [v] ∧ s = suffixWalk t m (sl.length + 1) sl v := by
    intro c s hcs
    rcases (mem_levelEntries t m lvl (c, s)).mp hcs with ⟨p, sl, v, hp, hl, hv, he⟩
    exact ⟨p, sl, v, hp, hl, hv, congrArg Prod.fst he, congrArg Prod.snd he⟩
  have hEsKeyLen : ∀ c s, (c, s) ∈ es → c.length = k + 2 := by
    intro c s hcs
    rcases hEsVal c s hcs with ⟨p, sl, v, hp, _, _, hc, _⟩
    have := ((inv.lvlMem p).mp hp).2
    rw [hc]
    simp
    omega
  have hShort : ∀ q s, lookupA m q = some s → s.length < q.length :=
    fun q s h => (inv.mKey q s h).2.2.2.2
  have hSV : ∀ q s, lookupA m q = some s → validPath t s = true ∧ s.length < q.length :=
    fun q s h => ⟨(inv.mKey q s h).2.2.2.1, (inv.mKey q s h).2.2.2.2⟩
  have hStable : ∀ q, q.length ≤ k + 1 → lookupA (m ++ es) q = lookupA m q := by
    intro q hq
    rw [lookupA_append]
    cases hl : lookupA m q with
    | some v => rfl
    | none =>
        cases hl2 : lookupA es q with
        | none => rfl
        | some s =>
            exfalso
            have := hEsKeyLen q s (lookupA_eq_some_mem hl2)
            omega
  have hAgree : ∀ fuel a v, a.length ≤ k + 1 →
      suffixWalk t (m ++ es) fuel a v = suffixWalk t m fuel a v :=
    fun fuel a v h => suffixWalk_agree t m (m ++ es) (k + 1) hShort hStable fuel a v h
  have hEsUnique : ∀ c, ∀ s1 s2, (c, s1) ∈ es → (c, s2) ∈ es → s1 = s2 := by
    intro c s1 s2 h1 h2
    rcases hEsVal c s1 h1 with ⟨p1, sl1, v1, hp1, hl1, hv1, hc1, hs1⟩
    rcases hEsVal c s2 h2 with ⟨p2, sl2, v2, hp2, hl2, hv2, hc2, hs2⟩
    have hlen : p1.length = p2.length := by
      have e1 := ((inv.lvlMem p1).mp hp1).2
      have e2 := ((inv.lvlMem p2).mp hp2).2
      omega
    rcases snoc_inj (hc1.symm.trans hc2) hlen with ⟨hpp, hvv⟩
    subst hpp
    subst hvv
    rw [hl1] at hl2
    rcases Option.some_inj.mp hl2 with rfl
    rw [hs1, hs2]
  have hEsLookup : ∀ c s, (c, s) ∈ es → lookupA es c = some s :=
    fun c s h => lookupA_of_mem_unique (hEsUnique c) h
  have hOsKey : ∀ c ov, (c, ov) ∈ os →
      ∃ s, (c, s) ∈ es ∧ ov = (if isWordAt t s then some s else (lookupA o s).getD none) := by
    intro c ov hcov
    rcases (mem_levelOuts t o es (c, ov)).mp hcov with ⟨c', s, hm, he⟩
    have hc : c' = c := (congrArg Prod.fst he).symm
    subst hc
    exact ⟨s, hm, congrArg Prod.snd he⟩
  have hOStable : ∀ q, q.length ≤ k + 1 → lookupA (o ++ os) q = lookupA o q := by
    intro q hq
    rw [lookupA_append]
    cases hl : lookupA o q with
    | some v => rfl
    | none =>
        cases hl2 : lookupA os q with
        | none => rfl
        | some s =>
            exfalso
            rcases hOsKey q s (lookupA_eq_some_mem hl2) with ⟨s0, hmm, _⟩
            have := hEsKeyLen q s0 hmm
            omega
  have hSnocValid : ∀ (q : List Nat) (v : Nat), validPath t (q ++ [v]) = true →
      validPath t q = true := by
    intro q v hval
    rw [validPath, nodeAt_snoc] at hval
    cases hn : nodeAt t q with
    | none => rw [hn] at hval; simp at hval
    | some n => simp [validPath, hn]
  constructor
  · -- lvlMem
    intro p
    rw [mem_nextLevel]
    constructor
    · rintro ⟨q, v, hq, hv, rfl⟩
      rcases (inv.lvlMem q).mp hq with ⟨hvalq, hlenq⟩
      refine ⟨(hasChild_iff_validPath t q v).mp ((mem_childKeys_iff t q v).mp hv), ?_⟩
      simp [hlenq]
    · rintro ⟨hval, hlen⟩
      have hne : p ≠ [] := by
        intro h
        subst h
        simp at hlen
      rcases exists_snoc p hne with ⟨q, v, rfl⟩
      have hvq : validPath t q = true := hSnocValid q v hval
      have hlenq : q.length = k + 1 := by
        simp at hlen
        omega
      exact ⟨q, v, (inv.lvlMem q).mpr ⟨hvq, hlenq⟩,
        (mem_childKeys_iff t q v).mpr ((hasChild_iff_validPath t q v).mpr hval), rfl⟩
  · -- mKey
    intro p s h
    rcases lookupA_append_some h with h1 | ⟨h0, h1⟩
    · rcases inv.mKey p s h1 with ⟨a, b, c, d, e⟩
      exact ⟨a, b, by omega, d, e⟩
    · rcases hEsVal p s (lookupA_eq_some_mem h1) with ⟨q, sl, v, hq, hl, hv, rfl, rfl⟩
      rcases (inv.lvlMem q).mp hq with ⟨hvalq, hlenq⟩
      have hvalsl := (inv.mKey q sl hl).2.2.2.1
      have hsllen := hShort q sl hl
      have hwalk := suffixWalk_valid_le t m hSV (sl.length + 1) sl v hvalsl
      refine ⟨(hasChild_iff_validPath t q v).mp ((mem_childKeys_iff t q v).mp hv),
        by simp, by simp; omega, hwalk.1, ?_⟩
      have := hwalk.2
      simp
      omega
  · -- mTotal
    intro p hval h1 h2
    by_cases hle : p.length ≤ k + 1
    · rw [hStable p hle]
      exact inv.mTotal p hval h1 hle
    · rcases exists_snoc p (by intro h; subst h; simp at h1) with ⟨q, v, rfl⟩
      have hvq : validPath t q = true := hSnocValid q v hval
      have hlenq : q.length = k + 1 := by
        simp at h2 hle
        omega
      have hqm := inv.mTotal q hvq (by omega) (by omega)
      rcases Option.isSome_iff_exists.mp hqm with ⟨sl, hsl⟩
      have hmemes : (q ++ [v], suffixWalk t m (sl.length + 1) sl v) ∈ es :=
        (mem_levelEntries t m lvl _).mpr ⟨q, sl, v, (inv.lvlMem q).mpr ⟨hvq, hlenq⟩, hsl,
          (mem_childKeys_iff t q v).mpr ((hasChild_iff_validPath t q v).mpr hval), rfl⟩
      rw [lookupA_append]
      cases hl : lookupA m (q ++ [v]) with
      | some _ => simp
      | none => exact lookupA_isSome_of_mem hmemes
  · -- mRec1
    intro v s h
    rw [hStable [v] (by simp)] at h
    exact inv.mRec1 v s h
  · -- mRecS
    intro p v s hp h
    rcases lookupA_append_some h with h1 | ⟨h0, h1⟩
    · rcases inv.mRecS p v s hp h1 with ⟨sl, hsl, hs⟩
      have hplen : (p ++ [v]).length ≤ k + 1 := (inv.mKey _ _ h1).2.2.1
      have hpl : p.length ≤ k := by
        simp at hplen
        omega
      have hsll := hShort p sl hsl
      refine ⟨sl, ?_, ?_⟩
      · rw [hStable p (by omega)]
        exact hsl
      · rw [hAgree _ sl v (by omega)]
        exact hs
    · rcases hEsVal (p ++ [v]) s (lookupA_eq_some_mem h1) with ⟨q, sl, w, hq, hl, hw, hc, hs⟩
      have hqlen : q.length = k + 1 := ((inv.lvlMem q).mp hq).2
      have hplen : p.length = k + 1 := by
        have := congrArg List.length hc
        simp at this
        omega
      rcases snoc_inj hc (by omega) with ⟨rfl, rfl⟩
      have hsll := hShort p sl hl
      refine ⟨sl, ?_, ?_⟩
      · rw [hStable p (by omega)]
        exact hl
      · rw [hAgree _ sl v (by omega)]
        exact hs
  · -- oKey
    intro c ov h
    rcases lookupA_append_some h with h1 | ⟨h0, h1⟩
    · rcases inv.oKey c ov h1 with ⟨hlen2, s, hms, hov⟩
      have hclen : c.length ≤ k + 1 := (inv.mKey c s hms).2.2.1
      have hslen : s.length < c.length := (inv.mKey c s hms).2.2.2.2
      refine ⟨hlen2, s, ?_, ?_⟩
      · rw [hStable c hclen]
        exact hms
      · rw [hOStable s (by omega)]
        exact hov
    · rcases hOsKey c ov (lookupA_eq_some_mem h1) with ⟨s, hmemes, hov⟩
      have hclen : c.length = k + 2 := hEsKeyLen c s hmemes
      have hnone : lookupA m c = none := by
        cases hl : lookupA m c with
        | none => rfl
        | some s0 =>
            exfalso
            have := (inv.mKey c s0 hl).2.2.1
            omega
      refine ⟨by omega, s, lookupA_append_right hnone (hEsLookup c s hmemes), ?_⟩
      rcases hEsVal c s hmemes with ⟨q, sl, w, hq, hl, hw, hc2, hs⟩
      have hqlen := ((inv.lvlMem q).mp hq).2
      have hvalsl := (inv.mKey q sl hl).2.2.2.1
      have hsllen := hShort q sl hl
      have hwalk := (suffixWalk_valid_le t m hSV (sl.length + 1) sl w hvalsl).2
      have hslen : s.length ≤ k + 1 := by
        rw [hs]
        omega
      rw [hOStable s hslen]
      exact hov
  · -- oTotal
    intro c hval h2 hle
    by_cases hk1 : c.length ≤ k + 1
    · rw [hOStable c hk1]
      exact inv.oTotal c hval h2 hk1
    · rcases exists_snoc c (by intro h; subst h; simp at h2) with ⟨q, v, rfl⟩
      have hvq : validPath t q = true := hSnocValid q v hval
      have hlenq : q.length = k + 1 := by
        simp at hle hk1
        omega
      have hqm := inv.mTotal q hvq (by omega) (by omega)
      rcases Option.isSome_iff_exists.mp hqm with ⟨sl, hsl⟩
      have hmemes : (q ++ [v], suffixWalk t m (sl.length + 1) sl v) ∈ es :=
        (mem_levelEntries t m lvl _).mpr ⟨q, sl, v, (inv.lvlMem q).mpr ⟨hvq, hlenq⟩, hsl,
          (mem_childKeys_iff t q v).mpr ((hasChild_iff_validPath t q v).mpr hval), rfl⟩
      have hmemos : (q ++ [v],
          if isWordAt t (suffixWalk t m (sl.length + 1) sl v)
          then some (suffixWalk t m (sl.length + 1) sl v)
          else (lookupA o (suffixWalk t m (sl.length + 1) sl v)).getD none) ∈ os :=
        (mem_levelOuts t o es _).mpr ⟨q ++ [v], suffixWalk t m (sl.length + 1) sl v, hmemes, rfl⟩
      rw [lookupA_append]
      cases hl : lookupA o (q ++ [v]) with
      | some _ => simp
      | none => exact lookupA_isSome_of_mem hmemos

theorem walkInv_buildWalkAux (t : AcNode) (k : Nat) :
    WalkInv t k (buildWalkAux t k).1.1 (buildWalkAux t k).1.2 (buildWalkAux t k).2 := by
  induction k with
  | zero => exact walkInv_zero t
  | succ k ih => exact walkInv_step t k _ _ _ ih

/-- Well-formedness of the suffix-link map used by the cursor: entries bind
exactly the nonempty valid paths, to strictly shorter valid paths. -/
def goodLinks (t : AcNode) (m : LinkMap) : Prop :=
  (∀ p s, lookupA m p = some s →
      validPath t p = true ∧ p ≠ [] ∧ validPath t s = true ∧ s.length < p.length) ∧
  (∀ p, validPath t p = true → p ≠ [] → (lookupA m p).isSome = true)

theorem goodLinks_acNew (ws : List (List Nat × Option (List Nat))) :
    goodLinks (acNew ws).root (acNew ws).links := by
  have inv := walkInv_buildWalkAux (buildRoot ws) (maxWordLen ws)
  constructor
  · intro p s h
    rcases inv.mKey p s h with ⟨a, b, _, d, e⟩
    refine ⟨a, ?_, d, e⟩
    intro hp
    subst hp
    simp at b
  · intro p hval hp
    have h1 : 1 ≤ p.length := by
      cases p with
      | nil => exact absurd rfl hp
      | cons x xs => simp
    exact inv.mTotal p hval h1 (by have := validPath_length_le ws p hval; omega)

/-- The cursor step lands on a valid node at most one level deeper. -/
theorem findNextStateF_valid_le (a : AcAutomaton) (hg : goodLinks a.root a.links)
    (fuel : Nat) :
    ∀ p v, validPath a.root p = true →
      validPath a.root (findNextStateF a fuel p v) = true ∧
        (findNextStateF a fuel p v).length ≤ p.length + 1 := by
  induction fuel with
  | zero =>
      intro p v hval
      exact ⟨hval, by simp [findNextStateF]⟩
  | succ fuel ih =>
      intro p v hval
      rcases Option.isSome_iff_exists.mp (by simpa [validPath] using hval) with ⟨n, hn⟩
      simp only [findNextStateF, hn]
      cases hc : lookupChild n.children v with
      | some c =>
          refine ⟨?_, by simp⟩
          rw [validPath, nodeAt_snoc, hn]
          show (lookupChild n.children v).isSome = true
          rw [hc]
          rfl
      | none =>
          cases hl : lookupA a.links p with
          | some q =>
              rcases hg.1 p q hl with ⟨_, _, hvq, hlq⟩
              rcases ih q v hvq with ⟨h1, h2⟩
              refine ⟨h1, ?_⟩
              show (findNextStateF a fuel q v).length ≤ p.length + 1
              omega
          | none =>
              refine ⟨hval, ?_⟩
              show p.length ≤ p.length + 1
              omega

theorem nextState_valid_le (a : AcAutomaton) (hg : goodLinks a.root a.links)
    (p : List Nat) (v : Nat) (hval : validPath a.root p = true) :
    validPath a.root (nextState a p v) = true ∧
      (nextState a p v).length ≤ p.length + 1 :=
  findNextStateF_valid_le a hg (p.length + 1) p v hval

/-- Only the root has no suffix link. -/
theorem isStateRoot_iff (a : AcAutomaton) (hg : goodLinks a.root a.links)
    (p : List Nat) (hval : validPath a.root p = true) :
    isStateRoot a p = true ↔ p = [] := by
  unfold isStateRoot
  constructor
  · intro h
    by_contra hp
    have := hg.2 p hval hp
    rw [Option.isNone_iff_eq_none] at h
    rw [h] at this
    simp at this
  · intro h
    subst h
    rw [Option.isNone_iff_eq_none]
    cases hl : lookupA a.links [] with
    | none => rfl
    | some s =>
        exfalso
        exact (hg.1 [] s hl).2.1 rfl

/-- The stored depth of the node at a valid path is the path length. -/
theorem stateDepth_acNew (ws : List (List Nat × Option (List Nat))) (p : List Nat)
    (hval : validPath (acNew ws).root p = true) :
    stateDepth (acNew ws) p = p.length := by
  rcases Option.isSome_iff_exists.mp (by simpa [validPath] using hval) with ⟨n, hn⟩
  have := depthOk_buildRoot ws p n hn
  simp only [stateDepth]
  have hroot : (acNew ws).root = buildRoot ws := rfl
  rw [hroot] at hn
  rw [hroot, hn]
  show n.depth = p.length
  omega

/-- With only nonempty patterns the root is not a word. -/
theorem root_not_word (ws : List (List Nat × Option (List Nat)))
    (hne : ∀ w ∈ ws, w.1 ≠ []) : isWordAt (buildRoot ws) [] = false := by
  have : isWordAt (buildRoot ws) [] = (buildRoot ws).isWord := by
    simp [isWordAt, nodeAt]
  rw [this]
  cases h : (buildRoot ws).isWord with
  | false => rfl
  | true =>
      exfalso
      rcases buildRoot_isWord ws h with ⟨w, hw, hw1⟩
      exact hne w hw hw1

/-- C4: after construction from nonempty patterns, a depth-one node has the
root as suffix link; a deeper node has the link obtained by the
suffix-search walk (over the final link map) started at the suffix link of
its parent; and the output link of every non-root node is its suffix
target when that target is a word, otherwise the output link of the
suffix target. -/
theorem claim_c4_link_construction (ws : List (List Nat × Option (List Nat)))
    (hne : ∀ w ∈ ws, w.1 ≠ []) :
    (∀ v, validPath (acNew ws).root [v] = true →
        lookupA (acNew ws).links [v] = some []) ∧
    (∀ p v, p ≠ [] → validPath (acNew ws).root (p ++ [v]) = true →
        ∃ sl, lookupA (acNew ws).links p = some sl ∧
          lookupA (acNew ws).links (p ++ [v]) =
            some (suffixWalk (acNew ws).root (acNew ws).links (sl.length + 1) sl v)) ∧
    (∀ p v, validPath (acNew ws).root (p ++ [v]) = true →
        ∃ s, lookupA (acNew ws).links (p ++ [v]) = some s ∧
          (lookupA (acNew ws).outs (p ++ [v])).getD none =
            (if isWordAt (acNew ws).root s then some s
             else (lookupA (acNew ws).outs s).getD none)) := by
  have inv := walkInv_buildWalkAux (buildRoot ws) (maxWordLen ws)
  have hroot : (acNew ws).root = buildRoot ws := rfl
  have hlinks : (acNew ws).links = (buildWalkAux (buildRoot ws) (maxWordLen ws)).1.1 := rfl
  have houts : (acNew ws).outs = (buildWalkAux (buildRoot ws) (maxWordLen ws)).1.2 := rfl
  have hoNone : ∀ q : List Nat, q.length ≤ 1 →
      lookupA (buildWalkAux (buildRoot ws) (maxWordLen ws)).1.2 q = none := by
    intro q hq
    cases hl : lookupA (buildWalkAux (buildRoot ws) (maxWordLen ws)).1.2 q with
    | none => rfl
    | some ov =>
        exfalso
        have := (inv.oKey q ov hl).1
        omega
  refine ⟨?_, ?_, ?_⟩
  · intro v hval
    rw [hroot] at hval
    rw [hlinks]
    have h1 := inv.mTotal [v] hval (by simp) (by simp)
    rcases Option.isSome_iff_exists.mp h1 with ⟨s, hs⟩
    rw [hs, inv.mRec1 v s hs]
  · intro p v hp hval
    rw [hroot] at hval
    rw [hlinks]
    have hlen := validPath_length_le ws (p ++ [v]) hval
    have h1 := inv.mTotal (p ++ [v]) hval (by simp) (by omega)
    rcases Option.isSome_iff_exists.mp h1 with ⟨s, hs⟩
    rcases inv.mRecS p v s hp hs with ⟨sl, hsl, hwalk⟩
    rw [hs, hwalk]
    exact ⟨sl, hsl, rfl⟩
  · intro p v hval
    rw [hroot] at hval
    rw [hlinks, houts]
    have hlen := validPath_length_le ws (p ++ [v]) hval
    have h1 := inv.mTotal (p ++ [v]) hval (by simp) (by omega)
    rcases Option.isSome_iff_exists.mp h1 with ⟨s, hs⟩
    refine ⟨s, hs, ?_⟩
    rw [hroot]
    cases p with
    | nil =>
        have hs0 : s = [] := inv.mRec1 v s hs
        subst hs0
        rw [hoNone ([] ++ [v]) (by simp), hoNone [] (by simp)]
        rw [show isWordAt (buildRoot ws) [] = false from root_not_word ws hne]
        simp
    | cons x xs =>
        have h2 := inv.oTotal ((x :: xs) ++ [v]) hval (by simp) (by omega)
        rcases Option.isSome_iff_exists.mp h2 with ⟨ov, hov⟩
        rcases inv.oKey _ ov hov with ⟨_, s', hms', hove⟩
        rw [hs] at hms'
        rcases Option.some_inj.mp hms' with rfl
        rw [hov, hove]
        simp

theorem claim_c4_link_construction_witness :
    (∀ w ∈ [([1, 2], some [9]), ([2, 3], (none : Option (List Nat)))], w.1 ≠ []) ∧
    (∀ v, validPath (acNew [([1, 2], some [9]), ([2, 3], none)]).root [v] = true →
        lookupA (acNew [([1, 2], some [9]), ([2, 3], none)]).links [v] = some []) := by
  have h := claim_c4_link_construction [([1, 2], some [9]), ([2, 3], none)] (by decide)
  exact ⟨by decide, h.1⟩

/-- C5: for every processed byte, if the cursor ends off the root the
potential buffer length equals the cursor depth, and if it ends at the
root the potential buffer is empty; the cursor also stays on a valid node
(the invariant holds initially for the empty state and is preserved by
every byte). -/
theorem claim_c5_buffer_depth_invariant (ws : List (List Nat × Option (List Nat)))
    (st : EngState) (b : Nat)
    (hcur : validPath (acNew ws).root st.cursor = true)
    (hlen : st.potential.length = stateDepth (acNew ws) st.cursor) :
    validPath (acNew ws).root (processByte (acNew ws) st b).1.cursor = true ∧
    (isStateRoot (acNew ws) (processByte (acNew ws) st b).1.cursor = true →
      (processByte (acNew ws) st b).1.potential = []) ∧
    (isStateRoot (acNew ws) (processByte (acNew ws) st b).1.cursor = false →
      (processByte (acNew ws) st b).1.potential.length =
        stateDepth (acNew ws) (processByte (acNew ws) st b).1.cursor) := by
  have hg := goodLinks_acNew ws
  set a := acNew ws with ha
  have hdep := stateDepth_acNew ws st.cursor hcur
  rcases nextState_valid_le a hg st.cursor b hcur with ⟨hvp, hlp⟩
  set p := nextState a st.cursor b with hp
  have hdp := stateDepth_acNew ws p hvp
  by_cases hroot : isStateRoot a p = true
  · have hpnil : p = [] := (isStateRoot_iff a hg p hvp).mp hroot
    simp only [processByte, if_pos hroot]
    refine ⟨hvp, fun _ => by simp, fun _ => ?_⟩
    show ([] : List Nat).length = stateDepth a (nextState a st.cursor b)
    have h1 : stateDepth a (nextState a st.cursor b) = (nextState a st.cursor b).length := hdp
    have h2 : nextState a st.cursor b = [] := hpnil
    rw [h1, h2]
  · simp only [processByte, if_neg hroot]
    set L := st.potential ++ [b] with hL
    have hLlen : L.length = st.cursor.length + 1 := by
      simp [hL, hlen, hdep]
    rw [drainLoop_eq]
    by_cases hword : isStateWord a p = true
    · rcases hrepl : stateReplacement a p with _ | r
      · simp only [wordPhase, if_pos hword, hrepl]
        have hvr : validPath a.root [] = true := by simp [validPath, nodeAt]
        refine ⟨hvr, fun _ => by simp, fun hc => ?_⟩
        rw [(isStateRoot_iff a hg [] hvr).mpr rfl] at hc
        simp at hc
      · simp only [wordPhase, if_pos hword, hrepl]
        have hvr : validPath a.root [] = true := by simp [validPath, nodeAt]
        refine ⟨hvr, fun _ => by simp, fun hc => ?_⟩
        rw [(isStateRoot_iff a hg [] hvr).mpr rfl] at hc
        simp at hc
    · have hwb : isStateWord a p = false := by
        cases h : isStateWord a p with
        | true => exact absurd h hword
        | false => rfl
      simp only [wordPhase, hwb, Bool.false_eq_true, if_false]
      refine ⟨hvp, fun hc => absurd hc hroot, fun _ => ?_⟩
      show (List.drop (L.length - stateDepth a (nextState a st.cursor b)) L).length =
        stateDepth a (nextState a st.cursor b)
      rw [List.length_drop]
      have h1 : stateDepth a (nextState a st.cursor b) = (nextState a st.cursor b).length := hdp
      have h2 : (nextState a st.cursor b).length ≤ L.length := by
        rw [hLlen]
        exact hlp
      omega

theorem claim_c5_buffer_depth_invariant_witness :
    (validPath (acNew [([1, 2], some [5])]).root [1] = true ∧
      ([1] : List Nat).length = stateDepth (acNew [([1, 2], some [5])]) [1]) ∧
    (validPath (acNew [([1, 2], some [5])]).root
        (processByte (acNew [([1, 2], some [5])]) ⟨[1], [1]⟩ 9).1.cursor = true ∧
      (isStateRoot (acNew [([1, 2], some [5])])
          (processByte (acNew [([1, 2], some [5])]) ⟨[1], [1]⟩ 9).1.cursor = true →
        (processByte (acNew [([1, 2], some [5])]) ⟨[1], [1]⟩ 9).1.potential = []) ∧
      (isStateRoot (acNew [([1, 2], some [5])])
          (processByte (acNew [([1, 2], some [5])]) ⟨[1], [1]⟩ 9).1.cursor = false →
        (processByte (acNew [([1, 2], some [5])]) ⟨[1], [1]⟩ 9).1.potential.length =
          stateDepth (acNew [([1, 2], some [5])])
            (processByte (acNew [([1, 2], some [5])]) ⟨[1], [1]⟩ 9).1.cursor)) :=
  ⟨⟨by decide, by decide⟩,
    claim_c5_buffer_depth_invariant [([1, 2], some [5])] ⟨[1], [1]⟩ 9 (by decide) (by decide)⟩

/-- C3: when a byte brings the cursor to a word node, then with a
replacement payload the potential buffer is discarded and the replacement
is emitted after the drained prefix, and without one the whole potential
buffer (drained prefix plus retained part) is emitted unchanged; in both
cases the cursor resets to the root. Nonempty patterns keep the root free
of the word flag, so the word branch is the one that runs. -/
theorem claim_c3_word_handling (ws : List (List Nat × Option (List Nat)))
    (hne : ∀ w ∈ ws, w.1 ≠ []) (st : EngState) (b : Nat)
    (hcur : validPath (acNew ws).root st.cursor = true)
    (hword : isStateWord (acNew ws) (nextState (acNew ws) st.cursor b) = true) :
    (∀ r, stateReplacement (acNew ws) (nextState (acNew ws) st.cursor b) = some r →
      processByte (acNew ws) st b =
        (⟨[], []⟩,
          (st.potential ++ [b]).take
            ((st.potential ++ [b]).length -
              stateDepth (acNew ws) (nextState (acNew ws) st.cursor b)) ++ r)) ∧
    (stateReplacement (acNew ws) (nextState (acNew ws) st.cursor b) = none →
      processByte (acNew ws) st b = (⟨[], []⟩, st.potential ++ [b])) := by
  have hg := goodLinks_acNew ws
  set a := acNew ws with ha
  set p := nextState a st.cursor b with hp
  have hvp := (nextState_valid_le a hg st.cursor b hcur).1
  have hpne : p ≠ [] := by
    intro h
    rw [h] at hword
    have hw0 : isStateWord a [] = isWordAt (buildRoot ws) [] := rfl
    rw [hw0, root_not_word ws hne] at hword
    simp at hword
  have hroot : ¬ isStateRoot a p = true := by
    intro h
    exact hpne ((isStateRoot_iff a hg p hvp).mp h)
  constructor
  · intro r hr
    simp only [processByte, if_neg hroot]
    rw [drainLoop_eq]
    simp only [wordPhase, if_pos hword, hr]
  · intro hr
    simp only [processByte, if_neg hroot]
    rw [drainLoop_eq]
    simp only [wordPhase, if_pos hword, hr]
    rw [List.take_append_drop]

theorem claim_c3_word_handling_witness :
    ((∀ w ∈ [(([1, 2] : List Nat), some ([7] : List Nat))], w.1 ≠ []) ∧
      validPath (acNew [([1, 2], some [7])]).root [1] = true ∧
      isStateWord (acNew [([1, 2], some [7])])
        (nextState (acNew [([1, 2], some [7])]) [1] 2) = true) ∧
    (∀ r, stateReplacement (acNew [([1, 2], some [7])])
        (nextState (acNew [([1, 2], some [7])]) [1] 2) = some r →
      processByte (acNew [([1, 2], some [7])]) ⟨[1], [1]⟩ 2 =
        (⟨[], []⟩,
          (([1] : List Nat) ++ [2]).take
            ((([1] : List Nat) ++ [2]).length -
              stateDepth (acNew [([1, 2], some [7])])
                (nextState (acNew [([1, 2], some [7])]) [1] 2)) ++ r)) :=
  ⟨⟨by decide, by decide, by decide⟩,
    (claim_c3_word_handling [([1, 2], some [7])] (by decide) ⟨[1], [1]⟩ 2
      (by decide) (by decide)).1⟩

/-! ### Output links are never read during streaming -/

theorem findNextStateF_outs_irrel (r : AcNode) (l : LinkMap) (om om' : OutMap) :
    ∀ fuel p v, findNextStateF ⟨r, l, om⟩ fuel p v = findNextStateF ⟨r, l, om'⟩ fuel p v := by
  intro fuel
  induction fuel with
  | zero => intro p v; rfl
  | succ fuel ih =>
      intro p v
      simp only [findNextStateF]
      split
      · split
        · rfl
        · split
          · apply ih
          · rfl
      · rfl

theorem processByte_outs_irrel (r : AcNode) (l : LinkMap) (om om' : OutMap)
    (st : EngState) (b : Nat) :
    processByte ⟨r, l, om⟩ st b = processByte ⟨r, l, om'⟩ st b := by
  simp only [processByte, nextState]
  rw [findNextStateF_outs_irrel r l om om' (st.cursor.length + 1) st.cursor b]
  rfl

theorem processChunk_outs_irrel (r : AcNode) (l : LinkMap) (om om' : OutMap)
    (st : EngState) (chunk : List Nat) :
    processChunk ⟨r, l, om⟩ st chunk = processChunk ⟨r, l, om'⟩ st chunk := by
  induction chunk generalizing st with
  | nil => rfl
  | cons b rest ih =>
      simp only [processChunk]
      rw [processByte_outs_irrel r l om om' st b, ih]

/-- C10: streaming never reads the output links (replacing them changes no
engine result); a match (cursor reset, word handling) is triggered exactly
when the node reached by the cursor has the word flag; and concretely, with
patterns 123 and 2, input 12 passes through unchanged even though the word
2 is a proper suffix of the cursor path 12 (a dictionary suffix word is
never detected). -/
theorem claim_c10_word_flag_only (ws : List (List Nat × Option (List Nat)))
    (hne : ∀ w ∈ ws, w.1 ≠ []) :
    (∀ om om' st chunk,
      processChunk ⟨(acNew ws).root, (acNew ws).links, om⟩ st chunk =
        processChunk ⟨(acNew ws).root, (acNew ws).links, om'⟩ st chunk) ∧
    (∀ st b, validPath (acNew ws).root st.cursor = true →
      (processByte (acNew ws) st b).1.cursor =
        (if isStateWord (acNew ws) (nextState (acNew ws) st.cursor b) = true then []
         else nextState (acNew ws) st.cursor b)) ∧
    (engineFull (acNew [([1, 2, 3], some [9]), ([2], some [8])]) [1, 2] = [1, 2] ∧
      isStateWord (acNew [([1, 2, 3], some [9]), ([2], some [8])]) [2] = true ∧
      ([1] : List Nat) ++ [2] = [1, 2]) := by
  refine ⟨?_, ?_, by decide, by decide, by decide⟩
  · intro om om' st chunk
    exact processChunk_outs_irrel _ _ om om' st chunk
  · intro st b hcur
    have hg := goodLinks_acNew ws
    set a := acNew ws with ha
    set p := nextState a st.cursor b with hp
    have hvp := (nextState_valid_le a hg st.cursor b hcur).1
    by_cases hroot : isStateRoot a p = true
    · have hpnil : p = [] := (isStateRoot_iff a hg p hvp).mp hroot
      simp only [processByte, if_pos hroot]
      have hw : isStateWord a p = false := by
        rw [hpnil]
        exact root_not_word ws hne
      rw [hw]
      simp
    · simp only [processByte, if_neg hroot]
      by_cases hword : isStateWord a p = true
      · rcases hrepl : stateReplacement a p with _ | r
        · simp only [wordPhase, if_pos hword, hrepl]
        · simp only [wordPhase, if_pos hword, hrepl]
      · have hwb : isStateWord a p = false := by
          cases h : isStateWord a p with
          | true => exact absurd h hword
          | false => rfl
        simp only [wordPhase, hwb, Bool.false_eq_true, if_false]

theorem claim_c10_word_flag_only_witness :
    (∀ w ∈ [(([1, 2] : List Nat), some ([7] : List Nat))], w.1 ≠ []) ∧
    (∀ om om' st chunk,
      processChunk ⟨(acNew [([1, 2], some [7])]).root, (acNew [([1, 2], some [7])]).links, om⟩
          st chunk =
        processChunk ⟨(acNew [([1, 2], some [7])]).root, (acNew [([1, 2], some [7])]).links, om'⟩
          st chunk) :=
  ⟨by decide, (claim_c10_word_flag_only [([1, 2], some [7])] (by decide)).1⟩

/-- C8: at end of stream nothing is dropped. Reader: when the source
reports zero bytes (exhausted event list) and the poll reaches the source,
the potential buffer is emptied and its bytes appear, after the drained
pending bytes, in the delivered output or the pending buffer; a zero-byte
result (end of stream) is only returned when both buffers were already
empty. Writer: close with a residual potential buffer first sends it to
the sink, clears it and asks to be polled again; only with an empty
potential buffer does close delegate to the sink close. -/
theorem claim_c8_end_of_stream_flush (a : AcAutomaton) (bufLen : Nat) (s : RState)
    (w : WState) :
    (s.src = [] → s.pending.length < bufLen → 1 ≤ bufLen →
      (pollRead a bufLen s).1.potential = [] ∧
      ∃ bs, (pollRead a bufLen s).2 = ReadRes.bytes bs ∧
        bs ++ (pollRead a bufLen s).1.pending = s.pending ++ s.potential ∧
        (bs = [] → s.pending = [] ∧ s.potential = [])) ∧
    (w.potential ≠ [] →
      pollClose w SinkRes.ok =
        (⟨w.cursor, [], w.pendingSt, w.sink ++ w.potential⟩, CloseRes.notReady)) ∧
    (w.potential = [] → ∀ resp, pollClose w resp = (w, sinkCloseRes resp)) := by
  refine ⟨?_, ?_, ?_⟩
  · intro hsrc hpend hbuf
    have htake : s.pending.take bufLen = s.pending := List.take_of_length_le (by omega)
    have hdrop : s.pending.drop bufLen = [] := List.drop_eq_nil_of_le (by omega)
    have hcond : ¬ (bufLen ≤ (s.pending.take bufLen).length) := by
      rw [htake]
      omega
    simp only [pollRead, if_neg hcond, hsrc]
    refine ⟨by trivial, (s.pending.take bufLen ++ s.potential).take bufLen, by trivial, ?_, ?_⟩
    · show (s.pending.take bufLen ++ s.potential).take bufLen ++
        (s.pending.drop bufLen ++ (s.pending.take bufLen ++ s.potential).drop bufLen) =
        s.pending ++ s.potential
      rw [htake, hdrop]
      simp [List.take_append_drop]
    · intro hbs
      rw [htake] at hbs
      rcases List.take_eq_nil_iff.mp hbs with h | h
      · omega
      · rcases List.append_eq_nil.mp h with ⟨h1, h2⟩
        exact ⟨h1, h2⟩
  · intro hne
    have hcond : ¬ (w.potential.length = 0) := by
      intro h
      exact hne (List.length_eq_zero.mp h)
    simp only [pollClose, if_neg hcond]
  · intro hnil resp
    have hcond : w.potential.length = 0 := by simp [hnil]
    simp only [pollClose, if_pos hcond]

theorem claim_c8_end_of_stream_flush_witness :
    (([] : List SrcEv) = [] ∧ ([5] : List Nat).length < 2 ∧ 1 ≤ 2 ∧
      (⟨[1], [7], [5], []⟩ : RState).potential = [7]) ∧
    ((pollRead (acNew [([1, 2], some [9])]) 2 ⟨[1], [7], [5], []⟩).1.potential = [] ∧
      ∃ bs, (pollRead (acNew [([1, 2], some [9])]) 2 ⟨[1], [7], [5], []⟩).2 =
          ReadRes.bytes bs ∧
        bs ++ (pollRead (acNew [([1, 2], some [9])]) 2 ⟨[1], [7], [5], []⟩).1.pending =
          [5] ++ [7] ∧
        (bs = [] → ([5] : List Nat) = [] ∧ ([7] : List Nat) = [])) :=
  ⟨by decide,
    (claim_c8_end_of_stream_flush (acNew [([1, 2], some [9])]) 2 ⟨[1], [7], [5], []⟩
      ⟨[], [], none, []⟩).1 rfl (by decide) (by decide)⟩

/-- C7: with no pending state a completed write always reports the full
input length as accepted, whatever the sink answered and however many
output bytes were produced. -/
theorem claim_c7_write_reports_input_length (a : AcAutomaton) (s : WState)
    (input : List Nat) (resp : SinkRes) (s' : WState) (n : Nat)
    (hpend : s.pendingSt = none) (_hinput : input ≠ [])
    (hres : pollWrite a s input resp = (s', WriteRes.accepted n)) :
    n = input.length := by
  simp only [pollWrite, hpend] at hres
  by_cases h : 0 < (processChunk a ⟨s.cursor, s.potential⟩ input).2.length
  · rw [if_pos h] at hres
    cases resp with
    | ok =>
        rw [Prod.ext_iff] at hres
        have := hres.2
        simp at this
        omega
    | err e =>
        rw [Prod.ext_iff] at hres
        have := hres.2
        simp at this
        omega
    | notReady =>
        rw [Prod.ext_iff] at hres
        have := hres.2
        simp at this
  · rw [if_neg h] at hres
    rw [Prod.ext_iff] at hres
    have := hres.2
    simp at this
    omega

theorem claim_c7_write_reports_input_length_witness :
    ((⟨[], [], none, []⟩ : WState).pendingSt = none ∧ ([1, 9] : List Nat) ≠ [] ∧
      pollWrite (acNew [([1, 2], some [7])]) ⟨[], [], none, []⟩ [1, 9] SinkRes.ok =
        ((⟨[], [], none, [1, 9]⟩ : WState), WriteRes.accepted 2)) ∧
    2 = ([1, 9] : List Nat).length :=
  ⟨⟨rfl, by decide, by decide⟩,
    claim_c7_write_reports_input_length (acNew [([1, 2], some [7])]) ⟨[], [], none, []⟩
      [1, 9] SinkRes.ok ⟨[], [], none, [1, 9]⟩ 2 rfl (by decide) (by decide)⟩

/-- C9 counterexample: construction with an empty pattern is not rejected.
The constructor is total and returns an automaton whose root silently
carries the word flag and the replacement of the empty pattern. -/
theorem claim_c9_counterexample :
    (acNew [([], some [7])]).root.isWord = true ∧
    (acNew [([], some [7])]).root.replacement = some [7] := by decide

/-- C9 amended: construction with an empty pattern is silently accepted
rather than rejected: no configuration error exists in the construction
path, and the empty pattern marks the root node as a word carrying the
given replacement. -/
theorem claim_c9_empty_pattern_accepted (r : Option (List Nat)) :
    (acNew [([], r)]).root.isWord = true ∧
    (acNew [([], r)]).root.replacement = r :=
  ⟨rfl, rfl⟩

/-- C6 counterexample: with a saved pending state and the sink answering
`poll_write` with an error, the wrapping writer returns `Ready(Ok(3))` and
drops the error instead of returning it. -/
theorem claim_c6_counterexample :
    pollWrite (acNew [([1, 2], some [7])]) ⟨[], [], some ([9], 3), []⟩ [] (SinkRes.err 5) =
      ((⟨[], [], none, []⟩ : WState), WriteRes.accepted 3) := by decide

/-- C6 amended: the reader propagates a source error unchanged and never
returns an io error that the source did not produce; the writer never
returns an io error at all from `poll_write` - when the sink reports an
error the writer discards it and reports the bytes as accepted. -/
theorem claim_c6_error_propagation (a : AcAutomaton) (bufLen : Nat) (s : RState)
    (w : WState) (input : List Nat) (resp : SinkRes) :
    (∀ e rest, s.src = SrcEv.fail e :: rest → s.pending.length < bufLen →
      (pollRead a bufLen s).2 = ReadRes.ioError e) ∧
    (∀ e, (pollRead a bufLen s).2 = ReadRes.ioError e →
      ∃ rest, s.src = SrcEv.fail e :: rest) ∧
    (∀ e, (pollWrite a w input resp).2 ≠ WriteRes.ioError e) ∧
    (∀ e toW n, w.pendingSt = some (toW, n) →
      pollWrite a w input (SinkRes.err e) =
        (⟨w.cursor, w.potential, none, w.sink⟩, WriteRes.accepted n)) := by
  refine ⟨?_, ?_, ?_, ?_⟩
  · intro e rest hsrc hlen
    have hcond : ¬ (bufLen ≤ (s.pending.take bufLen).length) := by
      rw [List.length_take]
      omega
    simp only [pollRead, hsrc, if_neg hcond]
  · intro e h
    rcases hsrc : s.src with _ | ⟨ev, rest⟩
    · simp only [pollRead, hsrc] at h
      split at h <;> simp at h
    · cases ev with
      | chunk c =>
          simp only [pollRead, hsrc] at h
          split at h
          · simp at h
          · split at h
            · simp at h
            · split at h <;> simp at h
      | fail e2 =>
          simp only [pollRead, hsrc] at h
          split at h
          · simp at h
          · simp at h
            exact ⟨rest, by rw [h]⟩
      | busy =>
          simp only [pollRead, hsrc] at h
          split at h
          · simp at h
          · split at h <;> simp at h
  · intro e h
    simp only [pollWrite] at h
    split at h
    · split at h <;> simp at h
    · split at h
      · split at h <;> simp at h
      · simp at h
  · intro e toW n hpend
    simp only [pollWrite, hpend]

theorem claim_c6_error_propagation_witness :
    ((⟨[], [], [4], [SrcEv.fail 5]⟩ : RState).src = SrcEv.fail 5 :: [] ∧
      (⟨[], [], [4], [SrcEv.fail 5]⟩ : RState).pending.length < 2) ∧
    (pollRead (acNew [([1, 2], some [7])]) 2 ⟨[], [], [4], [SrcEv.fail 5]⟩).2 =
      ReadRes.ioError 5 :=
  ⟨⟨rfl, by decide⟩,
    (claim_c6_error_propagation (acNew [([1, 2], some [7])]) 2 ⟨[], [], [4], [SrcEv.fail 5]⟩
      ⟨[], [], none, []⟩ [] SinkRes.ok).1 5 [] rfl (by decide)⟩

/-! ### Drive soundness: chunking does not change the final output -/

/-- All bytes the source will still deliver. -/
def srcBytes : List SrcEv → List Nat
  | [] => []
  | SrcEv.chunk c :: rest => c ++ srcBytes rest
  | SrcEv.fail _ :: rest => srcBytes rest
  | SrcEv.busy :: rest => srcBytes rest

/-- The bytes the engine will still emit from a given cursor and potential
buffer when fed the remaining source bytes, residual flush included. -/
def readerFuture (a : AcAutomaton) (cur pot : List Nat) (src : List SrcEv) : List Nat :=
  (processChunk a ⟨cur, pot⟩ (srcBytes src)).2 ++
    (processChunk a ⟨cur, pot⟩ (srcBytes src)).1.potential

/-- The bytes the engine will still emit when the remaining writer chunks
are written, residual flush included. -/
def writerFuture (a : AcAutomaton) (cur pot : List Nat) (chunks : List (List Nat)) : List Nat :=
  (processChunk a ⟨cur, pot⟩ chunks.flatten).2 ++
    (processChunk a ⟨cur, pot⟩ chunks.flatten).1.potential

theorem readerFuture_nil (a : AcAutomaton) (cur pot : List Nat) :
    readerFuture a cur pot [] = pot := by
  simp [readerFuture, srcBytes, processChunk]

theorem readerFuture_cons (a : AcAutomaton) (cur pot : List Nat) (c : List Nat)
    (rest : List SrcEv) :
    readerFuture a cur pot (SrcEv.chunk c :: rest) =
      (processChunk a ⟨cur, pot⟩ c).2 ++
        readerFuture a (processChunk a ⟨cur, pot⟩ c).1.cursor
          (processChunk a ⟨cur, pot⟩ c).1.potential rest := by
  unfold readerFuture
  rw [show srcBytes (SrcEv.chunk c :: rest) = c ++ srcBytes rest from rfl]
  rw [processChunk_append]
  simp [List.append_assoc]

theorem writerFuture_nil (a : AcAutomaton) (cur pot : List Nat) :
    writerFuture a cur pot [] = pot := by
  simp [writerFuture, processChunk]

theorem writerFuture_cons (a : AcAutomaton) (cur pot : List Nat) (c : List Nat)
    (rest : List (List Nat)) :
    writerFuture a cur pot (c :: rest) =
      (processChunk a ⟨cur, pot⟩ c).2 ++
        writerFuture a (processChunk a ⟨cur, pot⟩ c).1.cursor
          (processChunk a ⟨cur, pot⟩ c).1.potential rest := by
  unfold writerFuture
  rw [List.flatten_cons, processChunk_append]
  simp [List.append_assoc]

theorem pollRead_full (a : AcAutomaton) (bufLen : Nat) (s : RState)
    (h : bufLen ≤ (s.pending.take bufLen).length) :
    pollRead a bufLen s =
      (⟨s.cursor, s.potential, s.pending.drop bufLen, s.src⟩,
        ReadRes.bytes (s.pending.take bufLen)) := by
  simp only [pollRead, if_pos h]

theorem pollRead_eof (a : AcAutomaton) (bufLen : Nat) (s : RState)
    (h : ¬ bufLen ≤ (s.pending.take bufLen).length) (hsrc : s.src = []) :
    pollRead a bufLen s =
      (⟨s.cursor, [],
        s.pending.drop bufLen ++ (s.pending.take bufLen ++ s.potential).drop bufLen, []⟩,
        ReadRes.bytes ((s.pending.take bufLen ++ s.potential).take bufLen)) := by
  simp only [pollRead, if_neg h, hsrc]

theorem pollRead_chunk_retry (a : AcAutomaton) (bufLen : Nat) (s : RState) (c : List Nat)
    (rest : List SrcEv) (h : ¬ bufLen ≤ (s.pending.take bufLen).length)
    (hsrc : s.src = SrcEv.chunk c :: rest) (hc : ¬ c = [])
    (h0 : ((s.pending.take bufLen ++ (processChunk a ⟨s.cursor, s.potential⟩ c).2).take
      bufLen).length = 0) :
    pollRead a bufLen s =
      (⟨(processChunk a ⟨s.cursor, s.potential⟩ c).1.cursor,
        (processChunk a ⟨s.cursor, s.potential⟩ c).1.potential,
        s.pending.drop bufLen ++
          (s.pending.take bufLen ++ (processChunk a ⟨s.cursor, s.potential⟩ c).2).drop bufLen,
        rest⟩, ReadRes.retry) := by
  simp only [pollRead, if_neg h, hsrc, if_neg hc, if_pos h0]

theorem pollRead_chunk_bytes (a : AcAutomaton) (bufLen : Nat) (s : RState) (c : List Nat)
    (rest : List SrcEv) (h : ¬ bufLen ≤ (s.pending.take bufLen).length)
    (hsrc : s.src = SrcEv.chunk c :: rest) (hc : ¬ c = [])
    (h0 : ¬ ((s.pending.take bufLen ++ (processChunk a ⟨s.cursor, s.potential⟩ c).2).take
      bufLen).length = 0) :
    pollRead a bufLen s =
      (⟨(processChunk a ⟨s.cursor, s.potential⟩ c).1.cursor,
        (processChunk a ⟨s.cursor, s.potential⟩ c).1.potential,
        s.pending.drop bufLen ++
          (s.pending.take bufLen ++ (processChunk a ⟨s.cursor, s.potential⟩ c).2).drop bufLen,
        rest⟩,
        ReadRes.bytes ((s.pending.take bufLen ++
          (processChunk a ⟨s.cursor, s.potential⟩ c).2).take bufLen)) := by
  simp only [pollRead, if_neg h, hsrc, if_neg hc, if_neg h0]

/-- Whatever the chunking, a completed reader drive delivers exactly the
already accumulated bytes, the pending buffer, and the engine output of the
remaining source bytes (with its end-of-stream flush). -/
theorem driveReader_sound (a : AcAutomaton) (bufLen : Nat) (hbuf : 1 ≤ bufLen) :
    ∀ fuel (s : RState) (acc out : List Nat),
      (∀ ev ∈ s.src, ∃ c, ev = SrcEv.chunk c ∧ c ≠ []) →
      driveReader a bufLen fuel s acc = some out →
      out = acc ++ s.pending ++ readerFuture a s.cursor s.potential s.src := by
  intro fuel
  induction fuel with
  | zero =>
      intro s acc out hsrcH h
      simp [driveReader] at h
  | succ fuel ih =>
      intro s acc out hsrcH h
      by_cases hA : bufLen ≤ (s.pending.take bufLen).length
      · simp only [driveReader, pollRead_full a bufLen s hA] at h
        have hne : ¬ s.pending.take bufLen = [] := by
          intro hnil
          rw [hnil] at hA
          simp at hA
          omega
        rw [if_neg hne] at h
        have hrec := ih ⟨s.cursor, s.potential, s.pending.drop bufLen, s.src⟩
          (acc ++ s.pending.take bufLen) out hsrcH h
        rw [hrec]
        have hsp : s.pending.take bufLen ++ s.pending.drop bufLen = s.pending :=
          List.take_append_drop _ _
        show acc ++ s.pending.take bufLen ++ s.pending.drop bufLen ++
            readerFuture a s.cursor s.potential s.src =
          acc ++ s.pending ++ readerFuture a s.cursor s.potential s.src
        rw [List.append_assoc acc (s.pending.take bufLen) (s.pending.drop bufLen), hsp]
      · have htake : s.pending.take bufLen = s.pending := by
          rw [List.length_take] at hA
          exact List.take_of_length_le (by omega)
        have hdrop : s.pending.drop bufLen = [] := by
          rw [List.length_take] at hA
          exact List.drop_eq_nil_of_le (by omega)
        cases hsrc : s.src with
        | nil =>
            simp only [driveReader, pollRead_eof a bufLen s hA hsrc] at h
            by_cases hbs : (s.pending.take bufLen ++ s.potential).take bufLen = []
            · rw [if_pos hbs] at h
              have hall : s.pending.take bufLen ++ s.potential = [] := by
                rcases List.take_eq_nil_iff.mp hbs with h1 | h1
                · omega
                · exact h1
              rcases List.append_eq_nil.mp hall with ⟨h1, h2⟩
              have hpend : s.pending = [] := by rw [← htake]; exact h1
              rw [readerFuture_nil, hpend, h2]
              simp [← Option.some_inj.mp h]
            · rw [if_neg hbs] at h
              have hrec := ih ⟨s.cursor, [],
                s.pending.drop bufLen ++ (s.pending.take bufLen ++ s.potential).drop bufLen, []⟩
                (acc ++ (s.pending.take bufLen ++ s.potential).take bufLen) out
                (by intro ev hm; simp at hm) h
              rw [hrec, readerFuture_nil, readerFuture_nil, hdrop, htake]
              simp only [List.append_assoc, List.nil_append, List.append_nil]
              rw [List.take_append_drop]
        | cons ev rest =>
            rcases hsrcH ev (by rw [hsrc]; exact List.mem_cons_self ev rest) with ⟨c, hev, hcne⟩
            subst hev
            have hrest : ∀ ev ∈ rest, ∃ c, ev = SrcEv.chunk c ∧ c ≠ [] := by
              intro ev hm
              exact hsrcH ev (by rw [hsrc]; exact List.mem_cons_of_mem _ hm)
            have hcne2 : ¬ c = [] := hcne
            by_cases h0 : ((s.pending.take bufLen ++
                (processChunk a ⟨s.cursor, s.potential⟩ c).2).take bufLen).length = 0
            · simp only [driveReader,
                pollRead_chunk_retry a bufLen s c rest hA hsrc hcne2 h0] at h
              have hrec := ih ⟨(processChunk a ⟨s.cursor, s.potential⟩ c).1.cursor,
                (processChunk a ⟨s.cursor, s.potential⟩ c).1.potential,
                s.pending.drop bufLen ++ (s.pending.take bufLen ++
                  (processChunk a ⟨s.cursor, s.potential⟩ c).2).drop bufLen, rest⟩
                acc out hrest h
              dsimp only at hrec
              rw [hrec, readerFuture_cons]
              have hall : s.pending.take bufLen ++
                  (processChunk a ⟨s.cursor, s.potential⟩ c).2 = [] := by
                rcases List.take_eq_nil_iff.mp (List.length_eq_zero.mp h0) with h1 | h1
                · omega
                · exact h1
              rcases List.append_eq_nil.mp hall with ⟨h1, h2⟩
              have hpend : s.pending = [] := by rw [← htake]; exact h1
              simp [hdrop, h1, h2, hpend]
            · simp only [driveReader,
                pollRead_chunk_bytes a bufLen s c rest hA hsrc hcne2 h0] at h
              have hbne : ¬ (s.pending.take bufLen ++
                  (processChunk a ⟨s.cursor, s.potential⟩ c).2).take bufLen = [] := by
                intro hnil
                rw [hnil] at h0
                simp at h0
              rw [if_neg hbne] at h
              have hrec := ih ⟨(processChunk a ⟨s.cursor, s.potential⟩ c).1.cursor,
                (processChunk a ⟨s.cursor, s.potential⟩ c).1.potential,
                s.pending.drop bufLen ++ (s.pending.take bufLen ++
                  (processChunk a ⟨s.cursor, s.potential⟩ c).2).drop bufLen, rest⟩
                (acc ++ (s.pending.take bufLen ++
                  (processChunk a ⟨s.cursor, s.potential⟩ c).2).take bufLen) out hrest h
              dsimp only at hrec
              rw [hrec, readerFuture_cons, hdrop, htake]
              simp only [List.append_assoc, List.nil_append, List.append_nil]
              rw [← List.append_assoc
                (List.take bufLen (s.pending ++ (processChunk a ⟨s.cursor, s.potential⟩ c).2))
                (List.drop bufLen (s.pending ++ (processChunk a ⟨s.cursor, s.potential⟩ c).2)),
                List.take_append_drop, List.append_assoc]

/-- A completed writer drive hands the sink exactly the engine output of
all chunks, with the close-time flush of the residual potential buffer. -/
theorem driveWriter_sound (a : AcAutomaton) :
    ∀ fuel (s : WState) (chunks : List (List Nat)) (out : List Nat),
      s.pendingSt = none →
      driveWriter a fuel s chunks = some out →
      out = s.sink ++ writerFuture a s.cursor s.potential chunks := by
  intro fuel
  induction fuel with
  | zero =>
      intro s chunks out hpend h
      simp [driveWriter] at h
  | succ fuel ih =>
      intro s chunks out hpend h
      cases chunks with
      | nil =>
          by_cases hpot : s.potential.length = 0
          · have hclose : pollClose s SinkRes.ok = (s, CloseRes.closed) := by
              simp only [pollClose, if_pos hpot, sinkCloseRes]
            simp only [driveWriter, hclose] at h
            rw [writerFuture_nil]
            have hnil : s.potential = [] := List.length_eq_zero.mp hpot
            rw [hnil]
            simp [← Option.some_inj.mp h]
          · have hclose : pollClose s SinkRes.ok =
                (⟨s.cursor, [], s.pendingSt, s.sink ++ s.potential⟩, CloseRes.notReady) := by
              simp only [pollClose, if_neg hpot]
            simp only [driveWriter, hclose] at h
            have hrec := ih ⟨s.cursor, [], s.pendingSt, s.sink ++ s.potential⟩ [] out hpend h
            dsimp only at hrec
            rw [hrec, writerFuture_nil, writerFuture_nil]
            simp
      | cons c rest =>
          by_cases hlen : 0 < (processChunk a ⟨s.cursor, s.potential⟩ c).2.length
          · have hw : pollWrite a s c SinkRes.ok =
                (⟨(processChunk a ⟨s.cursor, s.potential⟩ c).1.cursor,
                  (processChunk a ⟨s.cursor, s.potential⟩ c).1.potential, none,
                  s.sink ++ (processChunk a ⟨s.cursor, s.potential⟩ c).2⟩,
                  WriteRes.accepted c.length) := by
              simp only [pollWrite, hpend, if_pos hlen]
            simp only [driveWriter, hw] at h
            have hrec := ih _ rest out rfl h
            dsimp only at hrec
            rw [hrec, writerFuture_cons]
            simp [List.append_assoc]
          · have hw : pollWrite a s c SinkRes.ok =
                (⟨(processChunk a ⟨s.cursor, s.potential⟩ c).1.cursor,
                  (processChunk a ⟨s.cursor, s.potential⟩ c).1.potential, none, s.sink⟩,
                  WriteRes.accepted c.length) := by
              simp only [pollWrite, hpend, if_neg hlen]
            simp only [driveWriter, hw] at h
            have hrec := ih _ rest out rfl h
            dsimp only at hrec
            rw [hrec, writerFuture_cons]
            have hnil : (processChunk a ⟨s.cursor, s.potential⟩ c).2 = [] := by
              cases hr : (processChunk a ⟨s.cursor, s.potential⟩ c).2 with
              | nil => rfl
              | cons x xs =>
                  exfalso
                  rw [hr] at hlen
                  simp at hlen
            rw [hnil]
            simp

/-- C1: buffer-size invariance. For any chunking of the input into
nonempty chunks that fit the caller buffer, a completed reader drive
delivers, and a completed writer drive hands the sink, exactly
`engineFull` of the concatenated input - so the final output does not
depend on the chunking, and chunked processing equals processing the whole
input at once or byte by byte. -/
theorem claim_c1_chunking_invariance (a : AcAutomaton) (split : List (List Nat))
    (bufLen fuelR fuelW : Nat) (outR outW : List Nat)
    (hbuf : 1 ≤ bufLen)
    (hchunks : ∀ c ∈ split, c ≠ [] ∧ c.length ≤ bufLen) :
    (driveReader a bufLen fuelR ⟨[], [], [], split.map SrcEv.chunk⟩ [] = some outR →
      outR = engineFull a split.flatten) ∧
    (driveWriter a fuelW ⟨[], [], none, []⟩ split = some outW →
      outW = engineFull a split.flatten) := by
  have hsrcBytes : ∀ l : List (List Nat), srcBytes (l.map SrcEv.chunk) = l.flatten := by
    intro l
    induction l with
    | nil => rfl
    | cons c r ihr => simp [srcBytes, ihr]
  constructor
  · intro h
    have hs := driveReader_sound a bufLen hbuf fuelR ⟨[], [], [], split.map SrcEv.chunk⟩ [] outR
      (by
        intro ev hm
        rcases List.mem_map.mp hm with ⟨c, hc, rfl⟩
        exact ⟨c, rfl, (hchunks c hc).1⟩) h
    rw [hs]
    dsimp only
    simp [readerFuture, engineFull, hsrcBytes]
  · intro h
    have hs := driveWriter_sound a fuelW ⟨[], [], none, []⟩ split outW rfl h
    rw [hs]
    dsimp only
    simp [writerFuture, engineFull]

theorem claim_c1_chunking_invariance_witness :
    (1 ≤ 2 ∧ (∀ c ∈ [([1] : List Nat), [2, 3]], c ≠ [] ∧ c.length ≤ 2) ∧
      driveReader (acNew [([1, 2], some [7])]) 2 10
        ⟨[], [], [], [[1], [2, 3]].map SrcEv.chunk⟩ [] = some [7, 3] ∧
      driveWriter (acNew [([1, 2], some [7])]) 10 ⟨[], [], none, []⟩ [[1], [2, 3]] =
        some [7, 3]) ∧
    ([7, 3] : List Nat) = engineFull (acNew [([1, 2], some [7])]) [[1], [2, 3]].flatten :=
  ⟨⟨by decide, by decide, by decide, by decide⟩,
    (claim_c1_chunking_invariance (acNew [([1, 2], some [7])]) [[1], [2, 3]] 2 10 10
      [7, 3] [7, 3] (by decide) (by decide)).1 (by decide)⟩
